import Mathlib

/-!
Verification of the prefix-tree speech-statistics core
(`prefix_tree.py` and `segment_surprisal_tree.py`).

The tree of `PrefixTree` is a nested dictionary: each node is a dict
with fields `id` (the full prefix this node represents), `labels`,
`freq`, an optional `prob` (absent until `calculate_probs` runs) and
`children`, a dict keyed by the child's full prefix.  We embed it as a
pair of mutually inductive types: `Node` for one node and `Children`
for the (insertion-ordered) association list that models the `children`
dict.  Frequencies and probabilities are exact rationals; surprisal and
entropy live in `ℝ` with `Real.logb 2` for `np.log2`.
-/

namespace SpeechStats

/-- Symbols of inserted sequences (phoneme codes, characters, ...). -/
abbrev Sym := String

mutual

/-- One node of the tree: the Python dict
`{'id': ..., 'labels': ..., 'freq': ..., 'prob'?: ..., 'children': ...}`.
`prob` is `none` until `calculate_probs` sets it. -/
inductive Node where
  | mk (id : List Sym) (labels : List String) (freq : ℚ)
       (prob : Option ℚ) (children : Children)

/-- The `children` dict of a node: an insertion-ordered association list
from full child prefixes to child nodes. -/
inductive Children where
  | nil
  | cons (key : List Sym) (val : Node) (tail : Children)

end

def Node.id : Node → List Sym
  | .mk i _ _ _ _ => i

def Node.labels : Node → List String
  | .mk _ l _ _ _ => l

def Node.freq : Node → ℚ
  | .mk _ _ f _ _ => f

def Node.prob : Node → Option ℚ
  | .mk _ _ _ p _ => p

def Node.children : Node → Children
  | .mk _ _ _ _ c => c

@[simp] theorem Node.id_mk (i : List Sym) (l : List String) (f : ℚ)
    (p : Option ℚ) (c : Children) : (Node.mk i l f p c).id = i := rfl

@[simp] theorem Node.labels_mk (i : List Sym) (l : List String) (f : ℚ)
    (p : Option ℚ) (c : Children) : (Node.mk i l f p c).labels = l := rfl

@[simp] theorem Node.freq_mk (i : List Sym) (l : List String) (f : ℚ)
    (p : Option ℚ) (c : Children) : (Node.mk i l f p c).freq = f := rfl

@[simp] theorem Node.prob_mk (i : List Sym) (l : List String) (f : ℚ)
    (p : Option ℚ) (c : Children) : (Node.mk i l f p c).prob = p := rfl

@[simp] theorem Node.children_mk (i : List Sym) (l : List String) (f : ℚ)
    (p : Option ℚ) (c : Children) : (Node.mk i l f p c).children = c := rfl

/-- The tree created by `PrefixTree.__init__`:
`{'id': (), 'labels': ['root'], 'freq': 0, 'children': {}}`. -/
def emptyTree : Node := .mk [] ["root"] 0 none .nil

/-- Dict lookup `children[key]` (first matching key, `none` if absent). -/
def getChild : Children → List Sym → Option Node
  | .nil, _ => none
  | .cons k v t, key => if k = key then some v else getChild t key

/-- Dict write `children[key] = n`: replace the value in place if the key
exists, otherwise append the new key at the end (Python dicts keep
insertion order). -/
def setChild : Children → List Sym → Node → Children
  | .nil, key, n => .cons key n .nil
  | .cons k v t, key, n =>
      if k = key then .cons k n t else .cons k v (setChild t key n)

/-- The loop body of `PrefixTree.insert`: walk the remaining symbols,
fetching or creating (`setdefault`) the node keyed by each prefix
`vector[:i+1]`, adding `freq` to its frequency, and appending `label`
to the labels of the node of the full sequence.  `pref` is the prefix
walked so far, so the key of the next node is `pref ++ [x]`. -/
def insertPath : List Sym → List Sym → Children → ℚ → String → Children
  | [], _, cs, _, _ => cs
  | x :: rest, pref, cs, w, l =>
      let key := pref ++ [x]
      let n0 := (getChild cs key).getD (.mk key [] 0 none .nil)
      let n1 : Node :=
        match rest with
        | [] => .mk n0.id (n0.labels ++ [l]) (n0.freq + w) n0.prob n0.children
        | _ :: _ =>
            .mk n0.id n0.labels (n0.freq + w) n0.prob
               (insertPath rest key n0.children w l)
      setChild cs key n1

/-- `PrefixTree.insert(vector, freq, label)`.  The root frequency is
incremented first; for the empty sequence the per-prefix loop runs zero
times and the final `node['labels'].append(label)` hits an unbound
variable, so the call fails — with the root already mutated.  The
`error` value carries the tree state left behind by the failed call. -/
def insert (t : Node) (v : List Sym) (w : ℚ) (l : String) : Except Node Node :=
  match v with
  | [] => .error (.mk t.id t.labels (t.freq + w) t.prob t.children)
  | x :: rest =>
      .ok (.mk t.id t.labels (t.freq + w) t.prob
             (insertPath (x :: rest) [] t.children w l))

/-- The tree state after `insert`, whether or not the call raised
(Python leaves the mutated tree behind either way). -/
def insertStep (t : Node) (e : List Sym × ℚ × String) : Node :=
  match insert t e.1 e.2.1 e.2.2 with
  | .ok t' => t'
  | .error t' => t'

/-- A whole build phase: repeated `insert` calls, left to right. -/
def insertList (t : Node) : List (List Sym × ℚ × String) → Node
  | [] => t
  | e :: rest => insertList (insertStep t e) rest

/-- `calculate_probs` over a children dict (`pf` is the parent's
frequency at the time the loop reads it): for every child set
`prob = freq(child) / freq(parent)` and recurse into the child with the
child's own frequency. -/
def calcProbsC (pf : ℚ) : Children → Children
  | .nil => .nil
  | .cons k (.mk i l f _p cc) t =>
      .cons k (.mk i l f (some (f / pf)) (calcProbsC f cc)) (calcProbsC pf t)

/-- `PrefixTree.calculate_probs()` started at the root.  The root's own
`prob` is never set. -/
def calculate_probs : Node → Node
  | .mk i l f p c => .mk i l f p (calcProbsC f c)

mutual

/-- `PrefixTree.get_continuations(node)`: a childless node returns the
one-element list of its own `(labels, freq)` pair; otherwise the
recursive results over the children are concatenated
(`sum(..., [])`). -/
def get_continuations : Node → List (List String × ℚ)
  | .mk _ l f _ .nil => [(l, f)]
  | .mk _ _ _ _ (.cons k c t) => getContsC (.cons k c t)

/-- `get_continuations` summed over a children dict. -/
def getContsC : Children → List (List String × ℚ)
  | .nil => []
  | .cons _ c t => get_continuations c ++ getContsC t

end

mutual

/-- Modelled from the spec: the terminal (childless) descendants of a
node, in the recursive traversal order of the children dicts.  A
childless node is its own sole terminal descendant. -/
def terminalsOf : Node → List Node
  | .mk i l f p .nil => [.mk i l f p .nil]
  | .mk _ _ _ _ (.cons k c t) => terminalsC (.cons k c t)

/-- Terminal descendants collected over a children dict. -/
def terminalsC : Children → List Node
  | .nil => []
  | .cons _ c t => terminalsOf c ++ terminalsC t

end

/-- Membership of an entry in a children dict. -/
def childMem (k : List Sym) (c : Node) : Children → Prop
  | .nil => False
  | .cons k' c' t => (k = k' ∧ c = c') ∨ childMem k c t

/-- Modelled from the spec: `m` is a descendant of `n` (reflexive,
transitive closure of the child relation). -/
inductive Desc : Node → Node → Prop where
  | refl (n : Node) : Desc n n
  | step (k : List Sym) (c n m : Node) :
      childMem k c n.children → Desc c m → Desc n m

mutual

/-- `get_continuations` projects exactly the `(labels, freq)` pairs of
the terminal descendants, node level. -/
theorem get_continuations_eq_terminals : ∀ (n : Node),
    get_continuations n = (terminalsOf n).map (fun m => (m.labels, m.freq))
  | .mk _ _ _ _ .nil => rfl
  | .mk _ _ _ _ (.cons k c t) => by
      simp only [get_continuations, terminalsOf]
      exact getContsC_eq_terminalsC (.cons k c t)

/-- `get_continuations` projects the terminal descendants, children
level. -/
theorem getContsC_eq_terminalsC : ∀ (cs : Children),
    getContsC cs = (terminalsC cs).map (fun m => (m.labels, m.freq))
  | .nil => rfl
  | .cons k c t => by
      simp only [getContsC, terminalsC, List.map_append]
      rw [get_continuations_eq_terminals c, getContsC_eq_terminalsC t]

end

/-- A node with empty children dict is its own sole terminal. -/
theorem terminalsOf_of_nil (m : Node) (h : m.children = .nil) :
    terminalsOf m = [m] := by
  cases m with
  | mk i l f p c =>
      cases c with
      | nil => rfl
      | cons k v t => simp [Node.children] at h

/-- A member of a children dict contributes its terminals to the
dict's terminals. -/
theorem mem_terminalsC_of_childMem : ∀ (cs : Children) (k : List Sym)
    (c m : Node), childMem k c cs → m ∈ terminalsOf c → m ∈ terminalsC cs
  | .nil, _, _, _, h, _ => absurd h (by simp [childMem])
  | .cons k0 c0 t, k, c, m, h, hm => by
      simp only [childMem] at h
      rcases h with ⟨-, rfl⟩ | h
      · simp only [terminalsC, List.mem_append]
        exact Or.inl hm
      · simp only [terminalsC, List.mem_append]
        exact Or.inr (mem_terminalsC_of_childMem t k c m h hm)

mutual

/-- Every listed terminal is a childless descendant, node level. -/
theorem desc_of_mem_terminalsOf : ∀ (n m : Node),
    m ∈ terminalsOf n → Desc n m ∧ m.children = .nil
  | .mk i l f p .nil, m, hm => by
      simp only [terminalsOf, List.mem_singleton] at hm
      subst hm
      exact ⟨Desc.refl _, rfl⟩
  | .mk i l f p (.cons k c t), m, hm => by
      simp only [terminalsOf] at hm
      obtain ⟨k', c', hmem, hd, hnil⟩ :=
        desc_of_mem_terminalsC (.cons k c t) m hm
      exact ⟨Desc.step k' c' _ m hmem hd, hnil⟩

/-- Every listed terminal is a childless descendant, children level. -/
theorem desc_of_mem_terminalsC : ∀ (cs : Children) (m : Node),
    m ∈ terminalsC cs →
    ∃ (k : List Sym) (c : Node), childMem k c cs ∧ Desc c m ∧ m.children = .nil
  | .nil, m, hm => absurd hm (by simp [terminalsC])
  | .cons k c t, m, hm => by
      simp only [terminalsC, List.mem_append] at hm
      rcases hm with hm | hm
      · obtain ⟨hd, hnil⟩ := desc_of_mem_terminalsOf c m hm
        exact ⟨k, c, Or.inl ⟨rfl, rfl⟩, hd, hnil⟩
      · obtain ⟨k', c', hmem, hd, hnil⟩ := desc_of_mem_terminalsC t m hm
        exact ⟨k', c', Or.inr hmem, hd, hnil⟩

end

/-- Every childless descendant is listed among the terminals. -/
theorem mem_terminalsOf_of_desc (n m : Node) (hd : Desc n m) :
    m.children = .nil → m ∈ terminalsOf n := by
  induction hd with
  | refl n =>
      intro hnil
      rw [terminalsOf_of_nil n hnil]
      exact List.mem_singleton.mpr rfl
  | step k c n' m' hmem _ ih =>
      intro hnil
      cases n' with
      | mk i l f p cs =>
          cases cs with
          | nil => simp [Node.children, childMem] at hmem
          | cons k0 c0 t =>
              simp only [terminalsOf]
              exact mem_terminalsC_of_childMem _ k c m'
                (by simpa [Node.children] using hmem) (ih hnil)

/-- C4: `get_continuations(node)` returns exactly the list of
`(label-collection, frequency)` pairs of the terminal (childless)
descendants of the node, gathered by recursive traversal, and a
childless node yields the one-element list of its own pair. -/
theorem get_continuations_spec :
    (∀ n : Node,
       get_continuations n = (terminalsOf n).map (fun m => (m.labels, m.freq)))
    ∧ (∀ n : Node, n.children = .nil →
       get_continuations n = [(n.labels, n.freq)])
    ∧ (∀ n m : Node, m ∈ terminalsOf n ↔ Desc n m ∧ m.children = .nil) := by
  refine ⟨get_continuations_eq_terminals, ?_, ?_⟩
  · intro n h
    rw [get_continuations_eq_terminals n, terminalsOf_of_nil n h, List.map_singleton]
  · intro n m
    exact ⟨desc_of_mem_terminalsOf n m, fun ⟨hd, hnil⟩ =>
      mem_terminalsOf_of_desc n m hd hnil⟩

/-- C4 witness: the freshly created root is childless, so it is its own
unique continuation. -/
theorem get_continuations_spec_witness :
    get_continuations emptyTree = [(emptyTree.labels, emptyTree.freq)] :=
  get_continuations_spec.2.1 emptyTree rfl

/-- The walk of `PrefixTree.get_node`: from node `n` whose prefix so far
is `pref`, follow the child keyed `pref ++ [x]` for each remaining
symbol `x` (`pointer['children'][vector[:i+1]]`); a missing key is a
KeyError, modelled as `none`. -/
def walkNode : Node → List Sym → List Sym → Option Node
  | n, _, [] => some n
  | n, pref, x :: rest =>
      match getChild n.children (pref ++ [x]) with
      | none => none
      | some c => walkNode c (pref ++ [x]) rest

/-- `PrefixTree.get_node(vector)`. -/
def get_node (t : Node) (v : List Sym) : Option Node := walkNode t [] v

/-- The walk of `PrefixTree.get_prefixes`: like `get_node` but
collecting the `(vector[i], node)` pair at every step. -/
def walkPairs : Node → List Sym → List Sym → Option (List (Sym × Node))
  | _, _, [] => some []
  | n, pref, x :: rest =>
      match getChild n.children (pref ++ [x]) with
      | none => none
      | some c => (walkPairs c (pref ++ [x]) rest).map (fun ps => (x, c) :: ps)

/-- `PrefixTree.get_prefixes(vector)`. -/
def get_prefixes (t : Node) (v : List Sym) : Option (List (Sym × Node)) :=
  walkPairs t [] v

/-- The per-pair projection of `prefix_probabilities`: read `y['prob']`
of every prefix node (KeyError — `none` — if `calculate_probs` has not
set it). -/
def probPairs : List (Sym × Node) → Option (List (Sym × ℚ))
  | [] => some []
  | (x, y) :: rest =>
      match y.prob with
      | none => none
      | some p => (probPairs rest).map (fun ps => (x, p) :: ps)

/-- The per-pair projection of `prefix_surprisals`:
`(x, -np.log2(y['prob']))` for every prefix pair. -/
noncomputable def surprisalPairs : List (Sym × Node) → Option (List (Sym × ℝ))
  | [] => some []
  | (x, y) :: rest =>
      match y.prob with
      | none => none
      | some p =>
          (surprisalPairs rest).map (fun ps => (x, -Real.logb 2 (p : ℝ)) :: ps)

/-- `PrefixTree.prefix_probabilities(vector)`. -/
def prefix_probabilities (t : Node) (v : List Sym) : Option (List (Sym × ℚ)) :=
  (get_prefixes t v).bind probPairs

/-- `PrefixTree.prefix_surprisals(vector)`. -/
noncomputable def prefix_surprisals (t : Node) (v : List Sym) :
    Option (List (Sym × ℝ)) :=
  (get_prefixes t v).bind surprisalPairs

/-- Pairwise duality between the two projections. -/
theorem surprisalPairs_eq_map (ps : List (Sym × Node)) :
    surprisalPairs ps =
      (probPairs ps).map (List.map (fun q => (q.1, -Real.logb 2 (q.2 : ℝ)))) := by
  induction ps with
  | nil => rfl
  | cons hd rest ih =>
      obtain ⟨x, y⟩ := hd
      simp only [surprisalPairs, probPairs]
      cases y.prob with
      | none => rfl
      | some p =>
          rw [ih]
          cases probPairs rest with
          | none => rfl
          | some l => rfl

/-- C6: `prefix_surprisals` and `prefix_probabilities` visit the same
prefix positions in the same order, and at every position the surprisal
equals `-log2` of the probability returned there (both walks fail
together when a prefix is missing or a probability is unset). -/
theorem surprisal_probability_duality (t : Node) (v : List Sym) :
    prefix_surprisals t v =
      (prefix_probabilities t v).map
        (List.map (fun q => (q.1, -Real.logb 2 (q.2 : ℝ)))) := by
  simp only [prefix_surprisals, prefix_probabilities]
  cases get_prefixes t v with
  | none => rfl
  | some ps => exact surprisalPairs_eq_map ps

/-- Sum of the `freq` fields over the entries of a children dict. -/
def childFreqSum : Children → ℚ
  | .nil => 0
  | .cons _ c t => c.freq + childFreqSum t

/-- All keys occurring anywhere in a children dict (every depth). -/
def keysC : Children → List (List Sym)
  | .nil => []
  | .cons k (.mk _ _ _ _ cc) t => k :: (keysC cc ++ keysC t)

/-- Shape invariant of trees built by `insert`: below a node whose
prefix is `pid`, every entry's key extends `pid` by one symbol, equals
the stored node's `id`, occurs once at its level, and the entry's
subtree satisfies the same invariant for its key. -/
def WFC : List Sym → Children → Prop
  | _, .nil => True
  | pid, .cons k (.mk i _ _ _ cc) t =>
      (∃ a, k = pid ++ [a]) ∧ i = k ∧ getChild t k = none ∧
        WFC k cc ∧ WFC pid t

/-- Frequency decomposition against a mass function `m` (the weight
terminating exactly at each prefix): every entry's frequency is the
sum of its children's frequencies plus `m` at its key. -/
def decompC (m : List Sym → ℚ) : Children → Prop
  | .nil => True
  | .cons k (.mk _ _ f _ cc) t =>
      (f = childFreqSum cc + m k) ∧ decompC m cc ∧ decompC m t

/-- `m` with weight `w` added at the single sequence `v`. -/
def bump (m : List Sym → ℚ) (v : List Sym) (w : ℚ) : List Sym → ℚ :=
  fun q => if q = v then m q + w else m q

theorem getChild_setChild_self : ∀ (cs : Children) (key : List Sym) (n : Node),
    getChild (setChild cs key n) key = some n
  | .nil, key, n => by simp [setChild, getChild]
  | .cons k c t, key, n => by
      by_cases h : k = key
      · simp [setChild, h, getChild]
      · simp only [setChild, if_neg h, getChild, if_neg h]
        exact getChild_setChild_self t key n

theorem getChild_setChild_ne : ∀ (cs : Children) (key k' : List Sym) (n : Node),
    k' ≠ key → getChild (setChild cs key n) k' = getChild cs k'
  | .nil, key, k', n, h => by
      simp only [setChild, getChild]
      rw [if_neg (Ne.symm h)]
  | .cons k c t, key, k', n, h => by
      by_cases hk : k = key
      · subst hk
        simp only [setChild, if_pos rfl, getChild]
        rw [if_neg (fun hh : k = k' => h hh.symm),
          if_neg (fun hh : k = k' => h hh.symm)]
      · simp only [setChild, if_neg hk, getChild]
        by_cases hk' : k = k'
        · simp [hk']
        · simp only [if_neg hk']
          exact getChild_setChild_ne t key k' n h

theorem setChild_cons_self (k : List Sym) (c : Node) (t : Children)
    (n : Node) : setChild (.cons k c t) k n = .cons k n t := by
  simp [setChild]

theorem setChild_cons_ne (k key : List Sym) (c : Node) (t : Children)
    (n : Node) (h : k ≠ key) :
    setChild (.cons k c t) key n = .cons k c (setChild t key n) := by
  simp [setChild, h]

/-- Unfolding `insertPath` at an empty children dict: a fresh node is
created and appended. -/
theorem insertPath_nil (x : Sym) (rest pref : List Sym) (w : ℚ) (l : String) :
    insertPath (x :: rest) pref .nil w l =
      .cons (pref ++ [x])
        (match rest with
         | [] => .mk (pref ++ [x]) [l] w none .nil
         | _ :: _ => .mk (pref ++ [x]) [] w none
             (insertPath rest (pref ++ [x]) .nil w l)) .nil := by
  cases rest with
  | nil => simp [insertPath, getChild, setChild, Node.id, Node.labels,
      Node.freq, Node.prob, Node.children]
  | cons y rest' => simp [insertPath, getChild, setChild, Node.id, Node.labels,
      Node.freq, Node.prob, Node.children]

/-- Unfolding `insertPath` when the head entry is the modified key. -/
theorem insertPath_cons_eq (x : Sym) (rest pref : List Sym) (c : Node)
    (t : Children) (w : ℚ) (l : String) :
    insertPath (x :: rest) pref (.cons (pref ++ [x]) c t) w l =
      .cons (pref ++ [x])
        (match rest with
         | [] => .mk c.id (c.labels ++ [l]) (c.freq + w) c.prob c.children
         | _ :: _ => .mk c.id c.labels (c.freq + w) c.prob
             (insertPath rest (pref ++ [x]) c.children w l)) t := by
  cases rest with
  | nil => simp [insertPath, getChild, setChild]
  | cons y rest' => simp [insertPath, getChild, setChild]

/-- Unfolding `insertPath` when the head entry is a different key. -/
theorem insertPath_cons_ne (x : Sym) (rest pref k : List Sym) (c : Node)
    (t : Children) (w : ℚ) (l : String) (h : k ≠ pref ++ [x]) :
    insertPath (x :: rest) pref (.cons k c t) w l =
      .cons k c (insertPath (x :: rest) pref t w l) := by
  cases rest with
  | nil => simp [insertPath, getChild, setChild, if_neg h]
  | cons y rest' => simp [insertPath, getChild, setChild, if_neg h]

theorem keysC_cons (k : List Sym) (c : Node) (t : Children) :
    keysC (.cons k c t) = k :: (keysC c.children ++ keysC t) := by
  cases c with
  | mk i l f p cc => rfl

theorem decompC_cons (m : List Sym → ℚ) (k : List Sym) (c : Node)
    (t : Children) :
    decompC m (.cons k c t) ↔
      c.freq = childFreqSum c.children + m k ∧
        decompC m c.children ∧ decompC m t := by
  cases c with
  | mk i l f p cc => exact Iff.rfl

theorem WFC_cons (pid k : List Sym) (c : Node) (t : Children) :
    WFC pid (.cons k c t) ↔
      (∃ a, k = pid ++ [a]) ∧ c.id = k ∧ getChild t k = none ∧
        WFC k c.children ∧ WFC pid t := by
  cases c with
  | mk i l f p cc => exact Iff.rfl

/-- A strict extension of `pref` that stays a prefix of
`pref ++ x :: rest` passes through `pref ++ [x]`. -/
theorem mid_of_pre (pref q : List Sym) (x : Sym) (rest : List Sym)
    (h1 : pref <+: q) (h2 : q ≠ pref) (h3 : q <+: pref ++ x :: rest) :
    (pref ++ [x]) <+: q := by
  obtain ⟨s, rfl⟩ := h1
  cases s with
  | nil => exact absurd (List.append_nil pref) h2
  | cons y s' =>
      have hs : y :: s' <+: x :: rest := (List.prefix_append_right_inj pref).mp h3
      obtain ⟨hy, hs'⟩ := List.cons_prefix_cons.mp hs
      subst hy
      exact ⟨s', by simp⟩

/-- An extension of `pref` by at least one symbol is strictly longer. -/
theorem length_lt_of_ext (pref q : List Sym) (a : Sym)
    (h : (pref ++ [a]) <+: q) : pref.length < q.length := by
  have := List.IsPrefix.length_le h
  simpa using this

/-- Every key in a well-formed children dict strictly extends the
parent prefix. -/
theorem keys_extend_of_WFC : ∀ (pref : List Sym) (cs : Children)
    (q : List Sym), WFC pref cs → q ∈ keysC cs →
    ∃ a, (pref ++ [a]) <+: q
  | pref, .nil, q, _, hq => absurd hq (by simp [keysC])
  | pref, .cons k (.mk i l f p cc) t, q, hw, hq => by
      obtain ⟨⟨a, rfl⟩, hik, hnone, hwc, hwt⟩ := hw
      simp only [keysC, List.mem_cons, List.mem_append] at hq
      rcases hq with rfl | hq | hq
      · exact ⟨a, List.prefix_refl _⟩
      · obtain ⟨a', ha'⟩ := keys_extend_of_WFC _ cc q hwc hq
        exact ⟨a, (List.prefix_append _ _).trans ha'⟩
      · exact keys_extend_of_WFC _ t q hwt hq

/-- A key absent from the top level of a well-formed dict (as
`getChild` reports) occurs nowhere in it. -/
theorem not_mem_keys_of_getChild_none : ∀ (pref : List Sym) (cs : Children)
    (x : Sym), WFC pref cs → getChild cs (pref ++ [x]) = none →
    (pref ++ [x]) ∉ keysC cs
  | pref, .nil, x, _, _ => by simp [keysC]
  | pref, .cons k (.mk i l f p cc) t, x, hw, hnone => by
      obtain ⟨⟨a, rfl⟩, hik, hnodup, hwc, hwt⟩ := hw
      simp only [getChild] at hnone
      by_cases hk : pref ++ [a] = pref ++ [x]
      · rw [if_pos hk] at hnone; exact absurd hnone (by simp)
      · rw [if_neg hk] at hnone
        intro hq
        simp only [keysC, List.mem_cons, List.mem_append] at hq
        rcases hq with hq | hq | hq
        · exact hk hq.symm
        · obtain ⟨a', ha'⟩ := keys_extend_of_WFC _ cc _ hwc hq
          have := length_lt_of_ext _ _ _ ha'
          simp at this
        · exact not_mem_keys_of_getChild_none _ t x hwt hnone hq

/-- In a well-formed dict, a key extending `pref ++ [x]` lives in the
branch of the (unique) entry keyed `pref ++ [x]`, or is that key. -/
theorem key_branch_of_WFC : ∀ (pref : List Sym) (cs : Children) (x : Sym)
    (q : List Sym), WFC pref cs → q ∈ keysC cs → (pref ++ [x]) <+: q →
    q = pref ++ [x] ∨
      ∃ c, getChild cs (pref ++ [x]) = some c ∧ q ∈ keysC c.children
  | pref, .nil, x, q, _, hq, _ => absurd hq (by simp [keysC])
  | pref, .cons k (.mk i l f p cc) t, x, q, hw, hq, hx => by
      obtain ⟨⟨a, rfl⟩, hik, hnodup, hwc, hwt⟩ := hw
      simp only [keysC, List.mem_cons, List.mem_append] at hq
      rcases hq with rfl | hq | hq
      · left
        exact (List.IsPrefix.eq_of_length hx (by simp)).symm
      · right
        obtain ⟨a', ha'⟩ := keys_extend_of_WFC _ cc q hwc hq
        have hkq : pref ++ [a] <+: q := (List.prefix_append _ _).trans ha'
        have hax : pref ++ [a] = pref ++ [x] := by
          rcases List.prefix_or_prefix_of_prefix hkq hx with h | h
          · exact List.IsPrefix.eq_of_length h (by simp)
          · exact (List.IsPrefix.eq_of_length h (by simp)).symm
        refine ⟨.mk i l f p cc, ?_, ?_⟩
        · simp only [getChild, if_pos hax]
        · simpa [Node.children] using hq
      · rcases key_branch_of_WFC _ t x q hwt hq hx with h | ⟨c, hc, hq'⟩
        · exact Or.inl h
        · by_cases hk : pref ++ [a] = pref ++ [x]
          · rw [hk] at hnodup
            rw [hnodup] at hc
            exact absurd hc (by simp)
          · right
            exact ⟨c, by simp only [getChild, if_neg hk]; exact hc, hq'⟩

/-- Unfolding `insertPath` when the key is absent (`setdefault`
creates a fresh node). -/
theorem insertPath_getChild_none (x : Sym) (rest pref : List Sym)
    (cs : Children) (w : ℚ) (l : String)
    (hg : getChild cs (pref ++ [x]) = none) :
    insertPath (x :: rest) pref cs w l =
      setChild cs (pref ++ [x])
        (match rest with
         | [] => .mk (pref ++ [x]) [l] w none .nil
         | _ :: _ => .mk (pref ++ [x]) [] w none
             (insertPath rest (pref ++ [x]) .nil w l)) := by
  cases rest with
  | nil => simp [insertPath, hg, Node.id, Node.labels, Node.freq, Node.prob,
      Node.children]
  | cons y rest' => simp [insertPath, hg, Node.id, Node.labels, Node.freq,
      Node.prob, Node.children]

/-- Unfolding `insertPath` when the key is present (`setdefault`
returns the stored node, which is then updated in place). -/
theorem insertPath_getChild_some (x : Sym) (rest pref : List Sym)
    (cs : Children) (w : ℚ) (l : String) (c : Node)
    (hg : getChild cs (pref ++ [x]) = some c) :
    insertPath (x :: rest) pref cs w l =
      setChild cs (pref ++ [x])
        (match rest with
         | [] => .mk c.id (c.labels ++ [l]) (c.freq + w) c.prob c.children
         | _ :: _ => .mk c.id c.labels (c.freq + w) c.prob
             (insertPath rest (pref ++ [x]) c.children w l)) := by
  cases rest with
  | nil => simp [insertPath, hg]
  | cons y rest' => simp [insertPath, hg]

theorem childFreqSum_setChild_none : ∀ (cs : Children) (key : List Sym)
    (n : Node), getChild cs key = none →
    childFreqSum (setChild cs key n) = childFreqSum cs + n.freq
  | .nil, key, n, _ => by simp [setChild, childFreqSum, add_comm]
  | .cons k c t, key, n, hg => by
      simp only [getChild] at hg
      by_cases hk : k = key
      · rw [if_pos hk] at hg; exact absurd hg (by simp)
      · rw [if_neg hk] at hg
        simp only [setChild, if_neg hk, childFreqSum]
        rw [childFreqSum_setChild_none t key n hg]
        ring

theorem childFreqSum_setChild_some : ∀ (cs : Children) (key : List Sym)
    (n c : Node), getChild cs key = some c →
    childFreqSum (setChild cs key n) + c.freq = childFreqSum cs + n.freq
  | .nil, key, n, c, hg => by simp [getChild] at hg
  | .cons k c0 t, key, n, c, hg => by
      simp only [getChild] at hg
      by_cases hk : k = key
      · rw [if_pos hk] at hg
        injection hg with hg
        subst hg
        simp only [setChild, if_pos hk, childFreqSum]
        ring
      · rw [if_neg hk] at hg
        simp only [setChild, if_neg hk, childFreqSum]
        have := childFreqSum_setChild_some t key n c hg
        linarith

/-- One `insert` walk adds exactly its weight to the child-frequency
sum of the dict it enters. -/
theorem childFreqSum_insertPath (x : Sym) (rest pref : List Sym)
    (cs : Children) (w : ℚ) (l : String) :
    childFreqSum (insertPath (x :: rest) pref cs w l) =
      childFreqSum cs + w := by
  cases hg : getChild cs (pref ++ [x]) with
  | none =>
      rw [insertPath_getChild_none x rest pref cs w l hg]
      cases rest with
      | nil =>
          show childFreqSum
            (setChild cs (pref ++ [x]) (.mk (pref ++ [x]) [l] w none .nil)) = _
          rw [childFreqSum_setChild_none cs _ _ hg]
          simp
      | cons y rest' =>
          show childFreqSum
            (setChild cs (pref ++ [x]) (.mk (pref ++ [x]) [] w none
              (insertPath (y :: rest') (pref ++ [x]) .nil w l))) = _
          rw [childFreqSum_setChild_none cs _ _ hg]
          simp
  | some c =>
      rw [insertPath_getChild_some x rest pref cs w l c hg]
      cases rest with
      | nil =>
          show childFreqSum (setChild cs (pref ++ [x])
            (.mk c.id (c.labels ++ [l]) (c.freq + w) c.prob c.children)) = _
          have := childFreqSum_setChild_some cs (pref ++ [x])
            (.mk c.id (c.labels ++ [l]) (c.freq + w) c.prob c.children) c hg
          simp only [Node.freq_mk] at this
          linarith
      | cons y rest' =>
          show childFreqSum (setChild cs (pref ++ [x])
            (.mk c.id c.labels (c.freq + w) c.prob
              (insertPath (y :: rest') (pref ++ [x]) c.children w l))) = _
          have := childFreqSum_setChild_some cs (pref ++ [x])
            (.mk c.id c.labels (c.freq + w) c.prob
              (insertPath (y :: rest') (pref ++ [x]) c.children w l)) c hg
          simp only [Node.freq_mk] at this
          linarith

/-- A stored entry of a well-formed dict carries its key as `id` and a
well-formed subtree. -/
theorem getChild_of_WFC : ∀ (pref : List Sym) (cs : Children)
    (k : List Sym) (c : Node), WFC pref cs → getChild cs k = some c →
    (∃ a, k = pref ++ [a]) ∧ c.id = k ∧ WFC k c.children
  | pref, .nil, k, c, _, hg => by simp [getChild] at hg
  | pref, .cons k0 c0 t, k, c, hw, hg => by
      rw [WFC_cons] at hw
      obtain ⟨hex, hid, hnodup, hwc, hwt⟩ := hw
      simp only [getChild] at hg
      by_cases hk : k0 = k
      · rw [if_pos hk] at hg
        injection hg with hg
        subst hg
        subst hk
        exact ⟨hex, hid, hid ▸ hwc⟩
      · rw [if_neg hk] at hg
        exact getChild_of_WFC pref t k c hwt hg

/-- `setChild` with a one-symbol-extension key and a well-formed node
preserves well-formedness. -/
theorem WFC_setChild : ∀ (pref : List Sym) (cs : Children) (key : List Sym)
    (n : Node), WFC pref cs → (∃ a, key = pref ++ [a]) → n.id = key →
    WFC key n.children → WFC pref (setChild cs key n)
  | pref, .nil, key, n, _, hex, hid, hwn => by
      simp only [setChild]
      rw [WFC_cons]
      exact ⟨hex, hid, rfl, hwn, trivial⟩
  | pref, .cons k c t, key, n, hw, hex, hid, hwn => by
      rw [WFC_cons] at hw
      obtain ⟨hex0, hid0, hnodup, hwc, hwt⟩ := hw
      by_cases hk : k = key
      · subst hk
        rw [setChild_cons_self]
        rw [WFC_cons]
        exact ⟨hex0, hid, hnodup, hwn, hwt⟩
      · simp only [setChild, if_neg hk]
        rw [WFC_cons]
        refine ⟨hex0, hid0, ?_, hwc, WFC_setChild pref t key n hwt hex hid hwn⟩
        rw [getChild_setChild_ne t key k n hk]
        exact hnodup

/-- The `insert` walk preserves well-formedness. -/
theorem WFC_insertPath : ∀ (v pref : List Sym) (cs : Children) (w : ℚ)
    (l : String), WFC pref cs → WFC pref (insertPath v pref cs w l)
  | [], pref, cs, w, l, hw => hw
  | x :: rest, pref, cs, w, l, hw => by
      cases hg : getChild cs (pref ++ [x]) with
      | none =>
          rw [insertPath_getChild_none x rest pref cs w l hg]
          cases rest with
          | nil =>
              exact WFC_setChild pref cs _ _ hw ⟨x, rfl⟩ rfl trivial
          | cons y rest' =>
              refine WFC_setChild pref cs _ _ hw ⟨x, rfl⟩ rfl ?_
              exact WFC_insertPath (y :: rest') (pref ++ [x]) .nil w l trivial
      | some c =>
          obtain ⟨hex, hid, hwc⟩ := getChild_of_WFC pref cs _ c hw hg
          rw [insertPath_getChild_some x rest pref cs w l c hg]
          cases rest with
          | nil =>
              exact WFC_setChild pref cs _ _ hw ⟨x, rfl⟩ (by simpa using hid)
                (by simpa using hwc)
          | cons y rest' =>
              refine WFC_setChild pref cs _ _ hw ⟨x, rfl⟩
                (by simpa using hid) ?_
              show WFC (pref ++ [x])
                (insertPath (y :: rest') (pref ++ [x]) c.children w l)
              exact WFC_insertPath (y :: rest') (pref ++ [x]) c.children w l
                (hid ▸ hwc)

/-- A strict one-symbol extension is never the base prefix. -/
theorem ne_of_ext (pref q : List Sym) (a : Sym)
    (h : (pref ++ [a]) <+: q) : q ≠ pref := by
  intro hq
  subst hq
  have := length_lt_of_ext q q a h
  omega

/-- Keys survive an `insert` walk. -/
theorem keys_mono_insertPath : ∀ (v pref : List Sym) (cs : Children)
    (w : ℚ) (l : String) (q : List Sym),
    q ∈ keysC cs → q ∈ keysC (insertPath v pref cs w l)
  | [], _, _, _, _, _, hq => hq
  | _ :: _, _, .nil, _, _, _, hq => absurd hq (by simp [keysC])
  | x :: rest, pref, .cons k c t, w, l, q, hq => by
      rw [keysC_cons, List.mem_cons] at hq
      by_cases hk : k = pref ++ [x]
      · subst hk
        rw [insertPath_cons_eq, keysC_cons]
        rcases hq with rfl | hq
        · exact List.mem_cons_self _ _
        rw [List.mem_append] at hq
        rcases hq with hq | hq
        · cases rest with
          | nil =>
              refine List.mem_cons_of_mem _ (List.mem_append.mpr (Or.inl ?_))
              show q ∈ keysC c.children
              exact hq
          | cons y rest' =>
              refine List.mem_cons_of_mem _ (List.mem_append.mpr (Or.inl ?_))
              show q ∈ keysC (insertPath (y :: rest') (pref ++ [x])
                c.children w l)
              exact keys_mono_insertPath (y :: rest') (pref ++ [x])
                c.children w l q hq
        · exact List.mem_cons_of_mem _ (List.mem_append.mpr (Or.inr hq))
      · rw [insertPath_cons_ne x rest pref k c t w l hk, keysC_cons]
        rcases hq with rfl | hq
        · exact List.mem_cons_self _ _
        rw [List.mem_append] at hq
        rcases hq with hq | hq
        · exact List.mem_cons_of_mem _ (List.mem_append.mpr (Or.inl hq))
        · exact List.mem_cons_of_mem _ (List.mem_append.mpr
            (Or.inr (keys_mono_insertPath (x :: rest) pref t w l q hq)))
termination_by v _ cs _ _ _ _ => (v.length, sizeOf cs)

/-- The full inserted sequence becomes a key. -/
theorem self_mem_keys_insertPath : ∀ (x : Sym) (rest pref : List Sym)
    (cs : Children) (w : ℚ) (l : String),
    (pref ++ x :: rest) ∈ keysC (insertPath (x :: rest) pref cs w l)
  | x, rest, pref, .nil, w, l => by
      rw [insertPath_nil, keysC_cons]
      cases rest with
      | nil => simp
      | cons y rest' =>
          refine List.mem_cons_of_mem _ (List.mem_append.mpr (Or.inl ?_))
          show pref ++ x :: y :: rest' ∈
            keysC (insertPath (y :: rest') (pref ++ [x]) .nil w l)
          rw [List.append_cons pref x (y :: rest')]
          exact self_mem_keys_insertPath y rest' (pref ++ [x]) .nil w l
  | x, rest, pref, .cons k c t, w, l => by
      by_cases hk : k = pref ++ [x]
      · subst hk
        rw [insertPath_cons_eq, keysC_cons]
        cases rest with
        | nil => simp
        | cons y rest' =>
            refine List.mem_cons_of_mem _ (List.mem_append.mpr (Or.inl ?_))
            show pref ++ x :: y :: rest' ∈
              keysC (insertPath (y :: rest') (pref ++ [x]) c.children w l)
            rw [List.append_cons pref x (y :: rest')]
            exact self_mem_keys_insertPath y rest' (pref ++ [x]) c.children w l
      · rw [insertPath_cons_ne x rest pref k c t w l hk, keysC_cons]
        exact List.mem_cons_of_mem _ (List.mem_append.mpr
          (Or.inr (self_mem_keys_insertPath x rest pref t w l)))
termination_by x rest _ cs _ _ => (rest.length, sizeOf cs)

/-- Every key of the walked dict is an old key or a strict extension of
`pref` along the inserted path. -/
theorem keys_of_insertPath : ∀ (x : Sym) (rest pref : List Sym)
    (cs : Children) (w : ℚ) (l : String) (q : List Sym),
    q ∈ keysC (insertPath (x :: rest) pref cs w l) →
    q ∈ keysC cs ∨ (pref <+: q ∧ q ≠ pref ∧ q <+: pref ++ x :: rest)
  | x, rest, pref, .nil, w, l, q, hq => by
      rw [insertPath_nil, keysC_cons, List.mem_cons] at hq
      rcases hq with rfl | hq
      · refine Or.inr ⟨⟨[x], rfl⟩, ne_of_ext pref _ x (List.prefix_refl _), ?_⟩
        exact ⟨rest, by simp⟩
      rw [List.mem_append] at hq
      rcases hq with hq | hq
      · cases rest with
        | nil => exact absurd hq (by simp [keysC])
        | cons y rest' =>
            replace hq : q ∈ keysC (insertPath (y :: rest') (pref ++ [x])
              .nil w l) := hq
            rcases keys_of_insertPath y rest' (pref ++ [x]) .nil w l q hq with
              hq' | ⟨h1, h2, h3⟩
            · exact absurd hq' (by simp [keysC])
            · refine Or.inr ⟨(List.prefix_append _ _).trans h1,
                ne_of_ext pref q x h1, ?_⟩
              rw [List.append_cons pref x (y :: rest')]
              exact h3
      · exact absurd hq (by simp [keysC])
  | x, rest, pref, .cons k c t, w, l, q, hq => by
      by_cases hk : k = pref ++ [x]
      · subst hk
        rw [insertPath_cons_eq, keysC_cons, List.mem_cons] at hq
        rcases hq with rfl | hq
        · refine Or.inr ⟨⟨[x], rfl⟩, ne_of_ext pref _ x (List.prefix_refl _),
            ⟨rest, by simp⟩⟩
        rw [List.mem_append] at hq
        rcases hq with hq | hq
        · cases rest with
          | nil =>
              replace hq : q ∈ keysC c.children := hq
              exact Or.inl (by rw [keysC_cons]; simp [hq])
          | cons y rest' =>
              replace hq : q ∈ keysC (insertPath (y :: rest') (pref ++ [x])
                c.children w l) := hq
              rcases keys_of_insertPath y rest' (pref ++ [x]) c.children w l
                q hq with hq' | ⟨h1, h2, h3⟩
              · exact Or.inl (by rw [keysC_cons]; simp [hq'])
              · refine Or.inr ⟨(List.prefix_append _ _).trans h1,
                  ne_of_ext pref q x h1, ?_⟩
                rw [List.append_cons pref x (y :: rest')]
                exact h3
        · exact Or.inl (by rw [keysC_cons]; simp [hq])
      · rw [insertPath_cons_ne x rest pref k c t w l hk, keysC_cons, List.mem_cons] at hq
        rcases hq with rfl | hq
        · exact Or.inl (by rw [keysC_cons]; simp)
        rw [List.mem_append] at hq
        rcases hq with hq | hq
        · exact Or.inl (by rw [keysC_cons]; simp [hq])
        · rcases keys_of_insertPath x rest pref t w l q hq with hq' | hr
          · exact Or.inl (by rw [keysC_cons]; simp [hq'])
          · exact Or.inr hr
termination_by x rest _ cs _ _ _ _ => (rest.length, sizeOf cs)

/-- Frequency decomposition only reads the mass function at keys of the
dict. -/
theorem decompC_stab : ∀ (cs : Children) (m m' : List Sym → ℚ),
    decompC m cs → (∀ q, q ∈ keysC cs → m' q = m q) → decompC m' cs
  | .nil, _, _, _, _ => trivial
  | .cons k (.mk i l f p cc) t, m, m', hd, hq => by
      obtain ⟨hf, hdc, hdt⟩ := hd
      refine ⟨?_, decompC_stab cc m m' hdc ?_, decompC_stab t m m' hdt ?_⟩
      · rw [hq k (by simp [keysC])]
        exact hf
      · intro q hmem
        exact hq q (by simp [keysC, hmem])
      · intro q hmem
        exact hq q (by simp [keysC, hmem])

theorem bump_self (m : List Sym → ℚ) (v : List Sym) (w : ℚ) :
    bump m v w v = m v + w := by simp [bump]

theorem bump_ne (m : List Sym → ℚ) (v : List Sym) (w : ℚ) (q : List Sym)
    (h : q ≠ v) : bump m v w q = m q := by simp [bump, h]

/-- Two one-symbol extensions of the same prefix that lie on a common
sequence are the same extension. -/
theorem ext_eq_of_pre (pref : List Sym) (a b : Sym) (q : List Sym)
    (h1 : (pref ++ [a]) <+: q) (h2 : (pref ++ [b]) <+: q) :
    pref ++ [a] = pref ++ [b] := by
  rcases List.prefix_or_prefix_of_prefix h1 h2 with h | h
  · exact List.IsPrefix.eq_of_length h (by simp)
  · exact (List.IsPrefix.eq_of_length h (by simp)).symm

/-- Core invariant-preservation lemma: one `insert` walk preserves the
frequency decomposition, with the terminating mass bumped at the full
inserted sequence.  `m` must vanish on the yet-absent prefixes along
the inserted path (they have received no terminating mass yet). -/
theorem decompC_insertPath : ∀ (x : Sym) (rest pref : List Sym)
    (cs : Children) (w : ℚ) (l : String) (m : List Sym → ℚ),
    WFC pref cs → decompC m cs →
    (∀ q, pref <+: q → q ≠ pref → q <+: pref ++ x :: rest →
      q ∉ keysC cs → m q = 0) →
    decompC (bump m (pref ++ x :: rest) w) (insertPath (x :: rest) pref cs w l)
  | x, rest, pref, .nil, w, l, m, _, _, hsupp => by
      have hm : m (pref ++ [x]) = 0 :=
        hsupp (pref ++ [x]) ⟨[x], rfl⟩
          (ne_of_ext pref _ x (List.prefix_refl _)) ⟨rest, by simp⟩
          (by simp [keysC])
      rw [insertPath_nil]
      cases rest with
      | nil =>
          rw [decompC_cons]
          refine ⟨?_, trivial, trivial⟩
          show w = childFreqSum .nil + bump m (pref ++ [x]) w (pref ++ [x])
          rw [bump_self, hm, childFreqSum]
          ring
      | cons y rest' =>
          rw [decompC_cons]
          have hkey : pref ++ [x] ≠ pref ++ x :: y :: rest' :=
            fun h => ne_of_ext (pref ++ [x]) _ y
              ⟨rest', by simp⟩ h.symm
          refine ⟨?_, ?_, trivial⟩
          · show w = childFreqSum (insertPath (y :: rest') (pref ++ [x])
              .nil w l) + bump m (pref ++ x :: y :: rest') w (pref ++ [x])
            rw [childFreqSum_insertPath, bump_ne _ _ _ _ hkey, hm, childFreqSum]
            ring
          · show decompC (bump m (pref ++ x :: y :: rest') w)
              (insertPath (y :: rest') (pref ++ [x]) .nil w l)
            have : pref ++ x :: y :: rest' = (pref ++ [x]) ++ y :: rest' := by
              simp
            rw [this]
            refine decompC_insertPath y rest' (pref ++ [x]) .nil w l m
              trivial trivial ?_
            intro q hq1 hq2 hq3 _
            refine hsupp q ((List.prefix_append pref [x]).trans hq1)
              (ne_of_ext pref q x hq1) ?_ (by simp [keysC])
            rw [List.append_cons pref x (y :: rest')]
            exact hq3
  | x, rest, pref, .cons k c t, w, l, m, hw, hd, hsupp => by
      rw [WFC_cons] at hw
      obtain ⟨hex, hid, hnodup, hwc, hwt⟩ := hw
      rw [decompC_cons] at hd
      obtain ⟨hf, hdc, hdt⟩ := hd
      by_cases hk : k = pref ++ [x]
      · subst hk
        rw [insertPath_cons_eq, decompC_cons]
        have hstabt : decompC (bump m (pref ++ x :: rest) w) t := by
          refine decompC_stab t m _ hdt ?_
          intro q hq
          refine bump_ne _ _ _ _ ?_
          intro heq
          rw [heq] at hq
          have hkq : (pref ++ [x]) <+: pref ++ x :: rest := ⟨rest, by simp⟩
          rcases key_branch_of_WFC pref t x _ hwt hq hkq with h | ⟨c', hc', -⟩
          · rw [h] at hq
            exact not_mem_keys_of_getChild_none pref t x hwt hnodup hq
          · rw [hnodup] at hc'
            exact absurd hc' (by simp)
        cases rest with
        | nil =>
            refine ⟨?_, ?_, hstabt⟩
            · show c.freq + w = childFreqSum c.children +
                bump m (pref ++ [x]) w (pref ++ [x])
              rw [bump_self]
              rw [show pref ++ [x] = pref ++ x :: ([] : List Sym) by simp] at hf
              linarith [hf]
            · show decompC (bump m (pref ++ x :: ([] : List Sym)) w) c.children
              refine decompC_stab c.children m _ hdc ?_
              intro q hq
              refine bump_ne _ _ _ _ ?_
              obtain ⟨a', ha'⟩ := keys_extend_of_WFC _ c.children q hwc hq
              intro heq
              rw [heq] at ha'
              exact ne_of_ext (pref ++ [x]) _ a' ha' (by simp)
        | cons y rest' =>
            have hkey : pref ++ [x] ≠ pref ++ x :: y :: rest' :=
              fun h => ne_of_ext (pref ++ [x]) _ y ⟨rest', by simp⟩ h.symm
            refine ⟨?_, ?_, hstabt⟩
            · show c.freq + w = childFreqSum (insertPath (y :: rest')
                (pref ++ [x]) c.children w l) +
                bump m (pref ++ x :: y :: rest') w (pref ++ [x])
              rw [childFreqSum_insertPath, bump_ne _ _ _ _ hkey]
              linarith [hf]
            · show decompC (bump m (pref ++ x :: y :: rest') w)
                (insertPath (y :: rest') (pref ++ [x]) c.children w l)
              have heq : pref ++ x :: y :: rest' =
                  (pref ++ [x]) ++ y :: rest' := by simp
              rw [heq]
              refine decompC_insertPath y rest' (pref ++ [x]) c.children w l m
                hwc hdc ?_
              intro q hq1 hq2 hq3 hq4
              refine hsupp q ((List.prefix_append pref [x]).trans hq1)
                (ne_of_ext pref q x hq1) ?_ ?_
              · rw [List.append_cons pref x (y :: rest')]
                exact hq3
              · rw [keysC_cons, List.mem_cons]
                rintro (rfl | hq5)
                · exact hq2 rfl
                rw [List.mem_append] at hq5
                rcases hq5 with hq5 | hq5
                · exact hq4 hq5
                · rcases key_branch_of_WFC pref t x q hwt hq5 hq1 with
                    h | ⟨c', hc', -⟩
                  · exact hq2 h
                  · rw [hnodup] at hc'
                    exact absurd hc' (by simp)
      · rw [insertPath_cons_ne x rest pref k c t w l hk, decompC_cons]
        have hkfull : k ≠ pref ++ x :: rest := by
          intro heq
          have h1 : (pref ++ [x]) <+: k := heq ▸ (⟨rest, by simp⟩ :
            (pref ++ [x]) <+: pref ++ x :: rest)
          obtain ⟨a, rfl⟩ := hex
          exact hk (ext_eq_of_pre pref a x _ (List.prefix_refl _) h1)
        refine ⟨?_, ?_, ?_⟩
        · rw [bump_ne _ _ _ _ hkfull]
          exact hf
        · refine decompC_stab c.children m _ hdc ?_
          intro q hq
          refine bump_ne _ _ _ _ ?_
          intro heq
          rw [heq] at hq
          obtain ⟨a', ha'⟩ := keys_extend_of_WFC _ c.children _ hwc hq
          obtain ⟨a, rfl⟩ := hex
          have h1 : (pref ++ [a]) <+: pref ++ x :: rest :=
            (List.prefix_append _ _).trans ha'
          have h2 : (pref ++ [x]) <+: pref ++ x :: rest := ⟨rest, by simp⟩
          exact hk (ext_eq_of_pre pref a x _ h1 h2)
        · refine decompC_insertPath x rest pref t w l m hwt hdt ?_
          intro q hq1 hq2 hq3 hq4
          refine hsupp q hq1 hq2 hq3 ?_
          rw [keysC_cons, List.mem_cons]
          have h2 : (pref ++ [x]) <+: q := mid_of_pre pref q x rest hq1 hq2 hq3
          rintro (heq | hq5)
          · obtain ⟨a, rfl⟩ := hex
            rw [heq] at h2
            exact hk (ext_eq_of_pre pref a x _ (List.prefix_refl _) h2)
          rw [List.mem_append] at hq5
          rcases hq5 with hq5 | hq5
          · obtain ⟨a', ha'⟩ := keys_extend_of_WFC _ c.children q hwc hq5
            obtain ⟨a, rfl⟩ := hex
            exact hk (ext_eq_of_pre pref a x q
              ((List.prefix_append _ _).trans ha') h2)
          · exact hq4 hq5
termination_by x rest _ cs _ _ _ => (rest.length, sizeOf cs)

mutual

/-- The aggregation invariant, decidably: every node with at least one
child has `freq = sum of child freqs`, throughout the subtree. -/
def aggNode : Node → Bool
  | .mk _ _ _ _ .nil => true
  | .mk _ _ f _ (.cons k c t) =>
      decide (f = childFreqSum (.cons k c t)) && aggC (.cons k c t)

/-- The aggregation invariant over a children dict. -/
def aggC : Children → Bool
  | .nil => true
  | .cons _ c t => aggNode c && aggC t

end

mutual

/-- Positivity of every frequency in a subtree, decidably. -/
def posNode : Node → Bool
  | .mk _ _ f _ cc => decide (0 < f) && posC cc

/-- Positivity over a children dict. -/
def posC : Children → Bool
  | .nil => true
  | .cons _ c t => posNode c && posC t

end

/-- Sum of the stored conditional probabilities over a children dict
(an unset probability counts 0, as a missing dict key). -/
def probSum : Children → ℚ
  | .nil => 0
  | .cons _ c t => c.prob.getD 0 + probSum t

mutual

/-- The normalization invariant, decidably: in every node with
children, the children's probabilities sum to 1. -/
def normNode : Node → Bool
  | .mk _ _ _ _ .nil => true
  | .mk _ _ _ _ (.cons k c t) =>
      decide (probSum (.cons k c t) = 1) && normC (.cons k c t)

/-- The normalization invariant over a children dict. -/
def normC : Children → Bool
  | .nil => true
  | .cons _ c t => normNode c && normC t

end

/-- The mass function accumulated by a build phase: `bump` folded over
the insertions, left to right. -/
def foldBump (m : List Sym → ℚ) : List (List Sym × ℚ × String) →
    (List Sym → ℚ)
  | [] => m
  | e :: rest => foldBump (bump m e.1 e.2.1) rest

/-- Total inserted weight terminating exactly at sequence `q`. -/
def termMass : List (List Sym × ℚ × String) → List Sym → ℚ
  | [], _ => 0
  | e :: rest, q => (if e.1 = q then e.2.1 else 0) + termMass rest q

theorem foldBump_eq : ∀ (ws : List (List Sym × ℚ × String))
    (m : List Sym → ℚ) (q : List Sym),
    foldBump m ws q = m q + termMass ws q
  | [], m, q => by simp [foldBump, termMass]
  | e :: rest, m, q => by
      rw [foldBump, foldBump_eq rest _ q, termMass]
      by_cases h : e.1 = q
      · subst h
        rw [bump_self]
        simp only [if_true, eq_self_iff_true]
        ring
      · rw [bump_ne _ _ _ _ (fun hh => h hh.symm)]
        rw [if_neg h]
        ring

theorem termMass_ne_zero : ∀ (ws : List (List Sym × ℚ × String))
    (q : List Sym), termMass ws q ≠ 0 → ∃ e ∈ ws, e.1 = q
  | [], q, h => absurd rfl h
  | e :: rest, q, h => by
      rw [termMass] at h
      by_cases he : e.1 = q
      · exact ⟨e, List.mem_cons_self _ _, he⟩
      · rw [if_neg he, zero_add] at h
        obtain ⟨e', he', hq⟩ := termMass_ne_zero rest q h
        exact ⟨e', List.mem_cons_of_mem _ he', hq⟩

/-- The whole-tree invariant carried through a build phase: root id is
empty, the tree is well-formed, frequencies decompose against `m`, and
`m` vanishes away from the existing keys. -/
def RootInv (m : List Sym → ℚ) (t : Node) : Prop :=
  t.id = [] ∧ WFC [] t.children ∧
    t.freq = childFreqSum t.children + m [] ∧ decompC m t.children ∧
    (∀ q, q ≠ [] → q ∉ keysC t.children → m q = 0)

theorem insertStep_fields (t : Node) (x : Sym) (xs : List Sym) (w : ℚ)
    (l : String) :
    insertStep t (x :: xs, w, l) =
      .mk t.id t.labels (t.freq + w) t.prob
        (insertPath (x :: xs) [] t.children w l) := by
  rfl

theorem RootInv_insertStep (t : Node) (m : List Sym → ℚ) (x : Sym)
    (xs : List Sym) (w : ℚ) (l : String) (h : RootInv m t) :
    RootInv (bump m (x :: xs) w) (insertStep t (x :: xs, w, l)) := by
  obtain ⟨hid, hwf, hf, hd, hs⟩ := h
  rw [insertStep_fields]
  refine ⟨by simp [hid], ?_, ?_, ?_, ?_⟩
  · simp only [Node.children_mk]
    exact WFC_insertPath (x :: xs) [] t.children w l hwf
  · simp only [Node.freq_mk, Node.children_mk]
    rw [childFreqSum_insertPath, bump_ne _ _ _ _ (by simp : ([] : List Sym) ≠ x :: xs)]
    linarith [hf]
  · simp only [Node.children_mk]
    have := decompC_insertPath x xs [] t.children w l m hwf hd ?_
    · simpa using this
    · intro q _ hq2 _ hq4
      exact hs q hq2 hq4
  · simp only [Node.children_mk]
    intro q hq hnot
    by_cases hv : q = x :: xs
    · subst hv
      exfalso
      apply hnot
      have := self_mem_keys_insertPath x xs [] t.children w l
      simpa using this
    · rw [bump_ne _ _ _ _ hv]
      refine hs q hq ?_
      intro hold
      exact hnot (keys_mono_insertPath (x :: xs) [] t.children w l q hold)

theorem RootInv_insertList : ∀ (ws : List (List Sym × ℚ × String))
    (t : Node) (m : List Sym → ℚ), (∀ e ∈ ws, e.1 ≠ []) →
    RootInv m t → RootInv (foldBump m ws) (insertList t ws)
  | [], t, m, _, h => h
  | e :: rest, t, m, hne, h => by
      obtain ⟨v, w, l⟩ := e
      cases v with
      | nil => exact absurd rfl (hne _ (List.mem_cons_self _ _))
      | cons x xs =>
          rw [insertList, foldBump]
          exact RootInv_insertList rest _ _
            (fun e' he' => hne e' (List.mem_cons_of_mem _ he'))
            (RootInv_insertStep t m x xs w l h)

theorem RootInv_empty : RootInv (fun _ => 0) emptyTree :=
  ⟨rfl, trivial, by simp [emptyTree, childFreqSum], trivial,
    fun _ _ _ => rfl⟩

/-- Origin of keys: every key of a built tree lies on the path of some
insertion. -/
theorem keys_insertList : ∀ (ws : List (List Sym × ℚ × String)) (t : Node),
    (∀ e ∈ ws, e.1 ≠ []) → ∀ q, q ∈ keysC (insertList t ws).children →
    q ∈ keysC t.children ∨ ∃ e ∈ ws, q ≠ [] ∧ q <+: e.1
  | [], t, _, q, hq => Or.inl hq
  | e :: rest, t, hne, q, hq => by
      obtain ⟨v, w, l⟩ := e
      cases v with
      | nil => exact absurd rfl (hne _ (List.mem_cons_self _ _))
      | cons x xs =>
          rw [insertList] at hq
          rcases keys_insertList rest _
            (fun e' he' => hne e' (List.mem_cons_of_mem _ he')) q hq with
            hq' | ⟨e', he', hr⟩
          · rw [insertStep_fields, Node.children_mk] at hq'
            rcases keys_of_insertPath x xs [] t.children w l q hq' with
              h | ⟨-, h2, h3⟩
            · exact Or.inl h
            · exact Or.inr ⟨(x :: xs, w, l), List.mem_cons_self _ _,
                h2, by simpa using h3⟩
          · exact Or.inr ⟨e', List.mem_cons_of_mem _ he', hr⟩

/-- From the decomposition invariant to the aggregation invariant: when
no inserted sequence is a proper prefix of another, the terminating
mass at every internal node is zero, so its frequency is exactly the
children's sum. -/
theorem aggC_of_decompC : ∀ (cs : Children) (pid : List Sym)
    (m : List Sym → ℚ) (S : List (List Sym)),
    WFC pid cs → decompC m cs →
    (∀ q, m q ≠ 0 → q ∈ S) →
    (∀ u ∈ S, ∀ v ∈ S, u <+: v → u = v) →
    (∀ q, q ∈ keysC cs → ∃ u ∈ S, q <+: u) →
    aggC cs = true
  | .nil, _, _, _, _, _, _, _, _ => rfl
  | .cons k (.mk i l f p cc) t, pid, m, S, hw, hd, hm0, hPF, horig => by
      obtain ⟨hex, hid, hnodup, hwc, hwt⟩ := hw
      obtain ⟨hf, hdc, hdt⟩ := hd
      rw [aggC, Bool.and_eq_true]
      constructor
      · cases cc with
        | nil => rfl
        | cons k' c' t' =>
            rw [aggNode, Bool.and_eq_true]
            constructor
            · rw [decide_eq_true_iff]
              have hmk : m k = 0 := by
                by_contra hne
                have hkS : k ∈ S := hm0 k hne
                have hk' : k' ∈ keysC (Children.cons k (.mk i l f p
                    (Children.cons k' c' t')) t) := by
                  rw [keysC_cons]
                  simp [keysC_cons]
                obtain ⟨u, hu, hqu⟩ := horig k' hk'
                obtain ⟨a', ha'⟩ := keys_extend_of_WFC k
                  (Children.cons k' c' t') k' hwc (by simp [keysC_cons])
                have hku : (k ++ [a']) <+: u := ha'.trans hqu
                have : k = u := hPF k hkS u hu
                  ((List.prefix_append _ _).trans hku)
                exact ne_of_ext k u a' hku this.symm
              rw [hmk, add_zero] at hf
              exact hf
            · exact aggC_of_decompC (Children.cons k' c' t') k m S hwc hdc
                hm0 hPF (fun q hq => horig q (by
                  rw [keysC_cons]
                  simp only [Node.children_mk, List.mem_cons, List.mem_append]
                  exact Or.inr (Or.inl hq)))
      · exact aggC_of_decompC t pid m S hwt hdt hm0 hPF
          (fun q hq => horig q (by
            rw [keysC_cons]
            simp only [List.mem_cons, List.mem_append]
            exact Or.inr (Or.inr hq)))

/-- The aggregation invariant for a build with no nested entries
(helper shared by the probability-normalization development). -/
theorem aggNode_of_build (ws : List (List Sym × ℚ × String))
    (h1 : ∀ e ∈ ws, e.1 ≠ [])
    (h2 : ∀ e ∈ ws, ∀ e' ∈ ws, e.1 <+: e'.1 → e.1 = e'.1) :
    aggNode (insertList emptyTree ws) = true := by
  obtain ⟨hid, hwf, hf, hd, hs⟩ :=
    RootInv_insertList ws emptyTree (fun _ => 0) h1 RootInv_empty
  have hm0 : ∀ q, foldBump (fun _ => 0) ws q ≠ 0 →
      q ∈ ws.map (fun e => e.1) := by
    intro q hq
    rw [foldBump_eq, zero_add] at hq
    obtain ⟨e, he, hq'⟩ := termMass_ne_zero ws q hq
    exact List.mem_map.mpr ⟨e, he, hq'⟩
  have hPF : ∀ u ∈ ws.map (fun e => e.1), ∀ v ∈ ws.map (fun e => e.1),
      u <+: v → u = v := by
    intro u hu v hv hpre
    obtain ⟨e, he, rfl⟩ := List.mem_map.mp hu
    obtain ⟨e', he', rfl⟩ := List.mem_map.mp hv
    exact h2 e he e' he' hpre
  have horig : ∀ q, q ∈ keysC (insertList emptyTree ws).children →
      ∃ u ∈ ws.map (fun e => e.1), q <+: u := by
    intro q hq
    rcases keys_insertList ws emptyTree h1 q hq with h | ⟨e, he, -, hr⟩
    · exact absurd h (by simp [emptyTree, keysC])
    · exact ⟨e.1, List.mem_map.mpr ⟨e, he, rfl⟩, hr⟩
  have haggC : aggC (insertList emptyTree ws).children = true :=
    aggC_of_decompC _ [] _ _ hwf hd hm0 hPF horig
  have hmnil : foldBump (fun _ => 0) ws [] = 0 := by
    by_contra hne
    obtain ⟨e, he, hq⟩ := List.mem_map.mp (hm0 [] hne)
    exact h1 e he hq
  cases ht : insertList emptyTree ws with
  | mk i l f p c =>
      rw [ht] at hf haggC
      simp only [Node.freq_mk, Node.children_mk] at hf haggC
      cases c with
      | nil => rfl
      | cons k v tl =>
          rw [aggNode, Bool.and_eq_true, decide_eq_true_iff]
          rw [hmnil, add_zero] at hf
          exact ⟨hf, haggC⟩

/-- C2: as stated the claim is false (see the counterexample); amended
with the hypothesis that no inserted sequence is a proper prefix of
another inserted sequence — which holds in the intended use, where
every sequence ends with the reserved end marker — every node with at
least one child has frequency equal to the sum of its children's
frequencies. -/
theorem aggregation_invariant_of_no_nested (ws : List (List Sym × ℚ × String))
    (h1 : ∀ e ∈ ws, e.1 ≠ [] ∧ 0 ≤ e.2.1)
    (h2 : ∀ e ∈ ws, ∀ e' ∈ ws, e.1 <+: e'.1 → e.1 = e'.1) :
    aggNode (insertList emptyTree ws) = true :=
  aggNode_of_build ws (fun e he => (h1 e he).1) h2

/-- C2 witness: the two-word example of the doc string satisfies the
hypotheses and the aggregation invariant. -/
theorem aggregation_invariant_of_no_nested_witness :
    (∀ e ∈ [(["1", "2", "4"], (3 : ℚ), ""), (["1", "2", "5"], (3 : ℚ), "")],
      e.1 ≠ [] ∧ 0 ≤ e.2.1) ∧
    aggNode (insertList emptyTree
      [(["1", "2", "4"], (3 : ℚ), ""), (["1", "2", "5"], (3 : ℚ), "")]) =
      true :=
  ⟨by decide, aggregation_invariant_of_no_nested _ (by decide) (by decide)⟩

/-- C2 counterexample: inserting `ab` then `a` (non-empty sequences,
non-negative weights) leaves the node of `a` with frequency 2 but a
single child of frequency 1, so the claimed invariant fails. -/
theorem aggregation_invariant_counterexample :
    (∀ e ∈ [(["a", "b"], (1 : ℚ), ""), (["a"], (1 : ℚ), "")],
      e.1 ≠ [] ∧ 0 ≤ e.2.1) ∧
    aggNode (insertList emptyTree
      [(["a", "b"], (1 : ℚ), ""), (["a"], (1 : ℚ), "")]) = false := by
  refine ⟨by decide, ?_⟩
  norm_num [insertList, insertStep, insert, insertPath, getChild, setChild,
    emptyTree, aggNode, aggC, childFreqSum]

theorem posNode_eq (n : Node) :
    posNode n = (decide (0 < n.freq) && posC n.children) := by
  cases n with
  | mk i l f p c => rfl

/-- Positive-weight insertions keep every frequency positive. -/
theorem posC_insertPath : ∀ (x : Sym) (rest pref : List Sym) (cs : Children)
    (w : ℚ) (l : String), 0 < w → posC cs = true →
    posC (insertPath (x :: rest) pref cs w l) = true
  | x, rest, pref, .nil, w, l, hw, _ => by
      rw [insertPath_nil]
      cases rest with
      | nil => simp [posC, posNode, hw]
      | cons y rest' =>
          rw [posC]
          show (posNode (.mk (pref ++ [x]) [] w none
            (insertPath (y :: rest') (pref ++ [x]) .nil w l)) && posC .nil) =
            true
          rw [posNode_eq, Bool.and_eq_true, Bool.and_eq_true]
          refine ⟨⟨?_, ?_⟩, rfl⟩
          · simpa using hw
          · simpa using posC_insertPath y rest' (pref ++ [x]) .nil w l hw rfl
  | x, rest, pref, .cons k c t, w, l, hw, hp => by
      rw [posC, Bool.and_eq_true] at hp
      obtain ⟨hpc, hpt⟩ := hp
      rw [posNode_eq, Bool.and_eq_true, decide_eq_true_iff] at hpc
      obtain ⟨hcf, hcc⟩ := hpc
      by_cases hk : k = pref ++ [x]
      · subst hk
        rw [insertPath_cons_eq]
        cases rest with
        | nil =>
            rw [posC]
            show (posNode (.mk c.id (c.labels ++ [l]) (c.freq + w) c.prob
              c.children) && posC t) = true
            rw [posNode_eq, Bool.and_eq_true]
            refine ⟨?_, hpt⟩
            rw [Bool.and_eq_true]
            exact ⟨by simp only [Node.freq_mk]; rw [decide_eq_true_iff]; linarith,
              by simpa using hcc⟩
        | cons y rest' =>
            rw [posC]
            show (posNode (.mk c.id c.labels (c.freq + w) c.prob
              (insertPath (y :: rest') (pref ++ [x]) c.children w l)) &&
              posC t) = true
            rw [posNode_eq, Bool.and_eq_true]
            refine ⟨?_, hpt⟩
            rw [Bool.and_eq_true]
            refine ⟨by simp only [Node.freq_mk]; rw [decide_eq_true_iff]; linarith,
              ?_⟩
            simp only [Node.children_mk]
            exact posC_insertPath y rest' (pref ++ [x]) c.children w l hw hcc
      · rw [insertPath_cons_ne x rest pref k c t w l hk, posC, Bool.and_eq_true]
        refine ⟨?_, posC_insertPath x rest pref t w l hw hpt⟩
        rw [posNode_eq, Bool.and_eq_true]
        exact ⟨by rw [decide_eq_true_iff]; exact hcf, hcc⟩
termination_by x rest _ cs _ _ _ _ => (rest.length, sizeOf cs)

theorem posC_insertList : ∀ (ws : List (List Sym × ℚ × String)) (t : Node),
    (∀ e ∈ ws, e.1 ≠ [] ∧ 0 < e.2.1) → posC t.children = true →
    posC (insertList t ws).children = true
  | [], _, _, hp => hp
  | e :: rest, t, h, hp => by
      obtain ⟨v, w, l⟩ := e
      obtain ⟨hne, hw⟩ := h _ (List.mem_cons_self _ _)
      cases v with
      | nil => exact absurd rfl hne
      | cons x xs =>
          rw [insertList]
          refine posC_insertList rest _
            (fun e' he' => h e' (List.mem_cons_of_mem _ he')) ?_
          rw [insertStep_fields, Node.children_mk]
          exact posC_insertPath x xs [] t.children w l hw hp

theorem childFreqSum_nonneg : ∀ (cs : Children), posC cs = true →
    0 ≤ childFreqSum cs
  | .nil, _ => le_refl 0
  | .cons k c t, hp => by
      rw [posC, Bool.and_eq_true] at hp
      obtain ⟨hpc, hpt⟩ := hp
      rw [posNode_eq, Bool.and_eq_true, decide_eq_true_iff] at hpc
      rw [childFreqSum]
      have := childFreqSum_nonneg t hpt
      linarith [hpc.1]

theorem childFreqSum_pos (k : List Sym) (c : Node) (t : Children)
    (hp : posC (.cons k c t) = true) : 0 < childFreqSum (.cons k c t) := by
  rw [posC, Bool.and_eq_true] at hp
  obtain ⟨hpc, hpt⟩ := hp
  rw [posNode_eq, Bool.and_eq_true, decide_eq_true_iff] at hpc
  rw [childFreqSum]
  have := childFreqSum_nonneg t hpt
  linarith [hpc.1]

/-- After `calculate_probs`, the children's probabilities sum to the
children's frequency mass over the parent frequency. -/
theorem probSum_calcProbsC : ∀ (cs : Children) (pf : ℚ),
    probSum (calcProbsC pf cs) = childFreqSum cs / pf
  | .nil, pf => by simp [calcProbsC, probSum, childFreqSum]
  | .cons k (.mk i l f p cc) t, pf => by
      rw [calcProbsC, probSum, childFreqSum, probSum_calcProbsC t pf]
      simp only [Node.prob_mk, Node.freq_mk, Option.getD_some]
      rw [div_add_div_same]

/-- `calcProbsC` does not change the frequencies. -/
theorem childFreqSum_calcProbsC : ∀ (cs : Children) (pf : ℚ),
    childFreqSum (calcProbsC pf cs) = childFreqSum cs
  | .nil, _ => rfl
  | .cons k (.mk i l f p cc) t, pf => by
      rw [calcProbsC, childFreqSum, childFreqSum,
        childFreqSum_calcProbsC t pf]
      simp

/-- `normNode` ignores every field except the frequency and the
children. -/
theorem normNode_ext (i : List Sym) (l : List String) (f : ℚ)
    (p p' : Option ℚ) (i' : List Sym) (l' : List String) (cc : Children) :
    normNode (.mk i l f p cc) = normNode (.mk i' l' f p' cc) := by
  cases cc <;> rfl

mutual

/-- Aggregation plus positivity yields normalization after
`calculate_probs`, node level. -/
theorem normNode_calc : ∀ (n : Node), aggNode n = true →
    posC n.children = true → normNode (calculate_probs n) = true
  | .mk _ _ _ _ .nil, _, _ => rfl
  | .mk i l f p (.cons k (.mk ci cl cf cp ccc) t), hagg, hpos => by
      rw [calculate_probs]
      rw [Node.children_mk] at hpos
      rw [aggNode, Bool.and_eq_true, decide_eq_true_iff] at hagg
      obtain ⟨hf, haggC⟩ := hagg
      have hfpos : 0 < f := hf ▸ childFreqSum_pos _ _ _ hpos
      show normNode (.mk i l f p (.cons k (.mk ci cl cf (some (cf / f))
        (calcProbsC cf ccc)) (calcProbsC f t))) = true
      rw [normNode, Bool.and_eq_true, decide_eq_true_iff]
      constructor
      · have h1 : probSum (.cons k (.mk ci cl cf (some (cf / f))
            (calcProbsC cf ccc)) (calcProbsC f t)) =
            probSum (calcProbsC f (.cons k (.mk ci cl cf cp ccc) t)) := rfl
        rw [h1, probSum_calcProbsC, ← hf]
        exact div_self (ne_of_gt hfpos)
      · have h2 : normC (.cons k (.mk ci cl cf (some (cf / f))
            (calcProbsC cf ccc)) (calcProbsC f t)) =
            normC (calcProbsC f (.cons k (.mk ci cl cf cp ccc) t)) := rfl
        rw [h2]
        exact normC_calc _ f haggC hpos

/-- Aggregation plus positivity yields normalization after
`calculate_probs`, children level. -/
theorem normC_calc : ∀ (cs : Children) (pf : ℚ), aggC cs = true →
    posC cs = true → normC (calcProbsC pf cs) = true
  | .nil, _, _, _ => rfl
  | .cons k (.mk i l f p cc) t, pf, hagg, hpos => by
      rw [aggC, Bool.and_eq_true] at hagg
      obtain ⟨haggN, haggC⟩ := hagg
      rw [posC, Bool.and_eq_true] at hpos
      obtain ⟨hposN, hposC⟩ := hpos
      rw [posNode_eq, Bool.and_eq_true] at hposN
      rw [calcProbsC, normC, Bool.and_eq_true]
      constructor
      · have h3 : normNode (.mk i l f (some (f / pf)) (calcProbsC f cc)) =
            normNode (.mk i l f p (calcProbsC f cc)) :=
          normNode_ext i l f (some (f / pf)) p i l (calcProbsC f cc)
        rw [h3]
        have h4 := normNode_calc (.mk i l f p cc) haggN
          (by simpa using hposN.2)
        rw [calculate_probs] at h4
        exact h4
      · exact normC_calc t pf haggC hposC

end

/-- C3: as stated the claim is false (see the counterexample); amended
with the hypothesis that no inserted sequence is a proper prefix of
another — as in the intended end-marker-terminated use — after
`calculate_probs` the children's conditional probabilities of every
node with children sum to exactly 1 (as exact rationals). -/
theorem probability_normalization_of_no_nested
    (ws : List (List Sym × ℚ × String))
    (h1 : ∀ e ∈ ws, e.1 ≠ [] ∧ 0 < e.2.1)
    (h2 : ∀ e ∈ ws, ∀ e' ∈ ws, e.1 <+: e'.1 → e.1 = e'.1) :
    normNode (calculate_probs (insertList emptyTree ws)) = true := by
  have hagg := aggNode_of_build ws (fun e he => (h1 e he).1) h2
  have hpos := posC_insertList ws emptyTree h1 rfl
  exact normNode_calc _ hagg hpos

/-- C3 witness: the cat/kill example of the doc string. -/
theorem probability_normalization_witness :
    (∀ e ∈ [(["K", "AE", "T"], (6 : ℚ), "cat"),
        (["K", "IH", "L"], (3 : ℚ), "kill")], e.1 ≠ [] ∧ 0 < e.2.1) ∧
    normNode (calculate_probs (insertList emptyTree
      [(["K", "AE", "T"], (6 : ℚ), "cat"),
        (["K", "IH", "L"], (3 : ℚ), "kill")])) = true :=
  ⟨by decide, probability_normalization_of_no_nested _ (by decide) (by decide)⟩

/-- C3 counterexample: inserting `ab` then `a` with positive weights
leaves the node of `a` with one child of probability 1/2, so the
children's probabilities of a node with children do not sum to 1. -/
theorem probability_normalization_counterexample :
    (∀ e ∈ [(["a", "b"], (1 : ℚ), ""), (["a"], (1 : ℚ), "")],
      e.1 ≠ [] ∧ 0 < e.2.1) ∧
    normNode (calculate_probs (insertList emptyTree
      [(["a", "b"], (1 : ℚ), ""), (["a"], (1 : ℚ), "")])) = false := by
  refine ⟨by decide, ?_⟩
  norm_num [insertList, insertStep, insert, insertPath, getChild, setChild,
    emptyTree, calculate_probs, calcProbsC, normNode, normC, probSum]

/-- `walkNode` unfolded at a non-empty query (valid for any node, the
match is on the query only). -/
theorem walkNode_cons (n : Node) (pref : List Sym) (x : Sym)
    (rest : List Sym) :
    walkNode n pref (x :: rest) =
      match getChild n.children (pref ++ [x]) with
      | none => none
      | some c => walkNode c (pref ++ [x]) rest := rfl

/-- `walkNode` looks only at the `children` field of its start node
(and at depth ≥ 1 returns nodes stored below). -/
theorem walkNode_isSome_ext (q : List Sym) (n n' : Node)
    (pref : List Sym) (h : n.children = n'.children) :
    (walkNode n pref q).isSome = (walkNode n' pref q).isSome := by
  cases q with
  | nil => rfl
  | cons x rest => rw [walkNode_cons, walkNode_cons, h]

/-- The walk of the tree after one `insert` succeeds exactly when it
succeeded before or the query lies on the inserted path. -/
theorem walkNode_insertPath : ∀ (q : List Sym) (y : Sym) (vrest : List Sym)
    (pref : List Sym) (cs : Children) (w : ℚ) (l : String)
    (i1 : List Sym) (l1 : List String) (f1 : ℚ) (p1 : Option ℚ)
    (i2 : List Sym) (l2 : List String) (f2 : ℚ) (p2 : Option ℚ),
    (walkNode (.mk i1 l1 f1 p1 (insertPath (y :: vrest) pref cs w l))
      pref q).isSome ↔
    (walkNode (.mk i2 l2 f2 p2 cs) pref q).isSome ∨ q <+: y :: vrest
  | [], y, vrest, pref, cs, w, l, i1, l1, f1, p1, i2, l2, f2, p2 => by
      simp [walkNode]
  | x :: qrest, y, vrest, pref, cs, w, l, i1, l1, f1, p1, i2, l2, f2, p2 => by
      rw [walkNode_cons, walkNode_cons]
      simp only [Node.children_mk]
      by_cases hxy : x = y
      · subst hxy
        cases hg : getChild cs (pref ++ [x]) with
        | none =>
            rw [insertPath_getChild_none x vrest pref cs w l hg]
            cases vrest with
            | nil =>
                rw [getChild_setChild_self]
                cases qrest with
                | nil => simp [walkNode, List.cons_prefix_cons]
                | cons z qrest' =>
                    simp [walkNode_cons, getChild, List.cons_prefix_cons]
            | cons y' vrest' =>
                rw [getChild_setChild_self]
                have := walkNode_insertPath qrest y' vrest' (pref ++ [x])
                  .nil w l (pref ++ [x]) [] w none
                  (pref ++ [x]) [] w none
                rw [this]
                have hnil : (walkNode (.mk (pref ++ [x]) [] w none .nil)
                    (pref ++ [x]) qrest).isSome ↔ qrest = [] := by
                  cases qrest with
                  | nil => simp [walkNode]
                  | cons z q' =>
                      rw [walkNode_cons]
                      simp [Node.children_mk, getChild]
                rw [hnil]
                constructor
                · rintro (rfl | h)
                  · exact Or.inr (List.cons_prefix_cons.mpr
                      ⟨rfl, List.nil_prefix⟩)
                  · exact Or.inr (List.cons_prefix_cons.mpr ⟨rfl, h⟩)
                · rintro (h | h)
                  · simp at h
                  · exact Or.inr (List.cons_prefix_cons.mp h).2
        | some c0 =>
            rw [insertPath_getChild_some x vrest pref cs w l c0 hg,
              getChild_setChild_self]
            cases vrest with
            | nil =>
                have hsame : (walkNode (.mk c0.id (c0.labels ++ [l])
                    (c0.freq + w) c0.prob c0.children) (pref ++ [x])
                    qrest).isSome = (walkNode c0 (pref ++ [x]) qrest).isSome :=
                  walkNode_isSome_ext qrest _ c0 _ (by simp)
                rw [hsame]
                constructor
                · exact fun h => Or.inl h
                · rintro (h | h)
                  · exact h
                  · obtain ⟨-, h⟩ := List.cons_prefix_cons.mp h
                    rw [List.prefix_nil.mp h]
                    simp [walkNode]
            | cons y' vrest' =>
                have := walkNode_insertPath qrest y' vrest' (pref ++ [x])
                  c0.children w l c0.id c0.labels (c0.freq + w) c0.prob
                  c0.id c0.labels c0.freq c0.prob
                rw [this]
                have hsame : (walkNode (.mk c0.id c0.labels c0.freq c0.prob
                    c0.children) (pref ++ [x]) qrest).isSome =
                    (walkNode c0 (pref ++ [x]) qrest).isSome :=
                  walkNode_isSome_ext qrest _ c0 _ (by simp)
                rw [hsame, List.cons_prefix_cons]
                constructor
                · rintro (h | h)
                  · exact Or.inl h
                  · exact Or.inr ⟨rfl, h⟩
                · rintro (h | ⟨-, h⟩)
                  · exact Or.inl h
                  · exact Or.inr h
      · have hkey : pref ++ [x] ≠ pref ++ [y] := by
          intro h
          exact hxy (by simpa using List.append_cancel_left h)
        have hset : getChild (insertPath (y :: vrest) pref cs w l)
            (pref ++ [x]) = getChild cs (pref ++ [x]) := by
          cases hg : getChild cs (pref ++ [y]) with
          | none =>
              rw [insertPath_getChild_none y vrest pref cs w l hg]
              exact getChild_setChild_ne cs (pref ++ [y]) (pref ++ [x]) _ hkey
          | some c0 =>
              rw [insertPath_getChild_some y vrest pref cs w l c0 hg]
              exact getChild_setChild_ne cs (pref ++ [y]) (pref ++ [x]) _ hkey
        rw [hset]
        have hnp : ¬(x :: qrest <+: y :: vrest) := by
          intro h
          exact hxy (List.cons_prefix_cons.mp h).1
        simp only [hnp, or_false]

theorem insertStep_nil_fields (t : Node) (w : ℚ) (l : String) :
    insertStep t ([], w, l) =
      .mk t.id t.labels (t.freq + w) t.prob t.children := rfl

/-- After one `insert` call the lookup walk succeeds exactly when it
succeeded before or the query is a prefix of the inserted sequence. -/
theorem get_node_isSome_step (t : Node) (e : List Sym × ℚ × String)
    (q : List Sym) :
    (get_node (insertStep t e) q).isSome ↔
      (get_node t q).isSome ∨ q <+: e.1 := by
  obtain ⟨v, w, l⟩ := e
  cases v with
  | nil =>
      rw [insertStep_nil_fields]
      unfold get_node
      rw [walkNode_isSome_ext q _ t [] (by simp)]
      by_cases hq : q = []
      · subst hq
        simp [walkNode]
      · simp [List.prefix_nil, hq]
  | cons x xs =>
      rw [insertStep_fields]
      unfold get_node
      cases t with
      | mk ti tl tf tp tc =>
          simpa using walkNode_insertPath q x xs [] tc w l
            ti tl (tf + w) tp ti tl tf tp

theorem get_node_isSome_insertList : ∀ (ws : List (List Sym × ℚ × String))
    (t : Node) (q : List Sym),
    (get_node (insertList t ws) q).isSome ↔
      (get_node t q).isSome ∨ ∃ e ∈ ws, q <+: e.1
  | [], t, q => by simp [insertList]
  | e :: rest, t, q => by
      rw [insertList, get_node_isSome_insertList rest _ q,
        get_node_isSome_step]
      simp only [List.mem_cons]
      constructor
      · rintro ((h | h) | ⟨e', he', h⟩)
        · exact Or.inl h
        · exact Or.inr ⟨e, Or.inl rfl, h⟩
        · exact Or.inr ⟨e', Or.inr he', h⟩
      · rintro (h | ⟨e', rfl | he', h⟩)
        · exact Or.inl (Or.inl h)
        · exact Or.inl (Or.inr h)
        · exact Or.inr ⟨e', he', h⟩

theorem get_node_emptyTree (q : List Sym) :
    (get_node emptyTree q).isSome ↔ q = [] := by
  cases q with
  | nil => simp [get_node, walkNode]
  | cons x rest =>
      unfold get_node
      rw [walkNode_cons]
      simp [emptyTree, getChild]

/-- Root id and well-formedness survive any build (empty insertions
included: they fail before touching the children). -/
theorem WF_insertList : ∀ (ws : List (List Sym × ℚ × String)) (t : Node),
    t.id = [] → WFC [] t.children →
    (insertList t ws).id = [] ∧ WFC [] (insertList t ws).children
  | [], _, h1, h2 => ⟨h1, h2⟩
  | e :: rest, t, h1, h2 => by
      obtain ⟨v, w, l⟩ := e
      cases v with
      | nil =>
          rw [insertList, insertStep_nil_fields]
          exact WF_insertList rest _ (by simpa using h1) (by simpa using h2)
      | cons x xs =>
          rw [insertList, insertStep_fields]
          exact WF_insertList rest _ (by simpa using h1)
            (by simpa using WFC_insertPath (x :: xs) [] t.children w l h2)

/-- In a well-formed tree the node found at a query carries the query
as its id. -/
theorem walkNode_id : ∀ (q : List Sym) (n res : Node),
    WFC n.id n.children → walkNode n n.id q = some res →
    res.id = n.id ++ q
  | [], n, res, _, h => by
      simp only [walkNode] at h
      injection h with h
      subst h
      simp
  | x :: rest, n, res, hw, h => by
      rw [walkNode_cons] at h
      cases hg : getChild n.children (n.id ++ [x]) with
      | none => rw [hg] at h; exact absurd h (by simp)
      | some c =>
          rw [hg] at h
          obtain ⟨hex, hid, hwc⟩ := getChild_of_WFC n.id n.children _ c hw hg
          have hrec := walkNode_id rest c res (hid ▸ hwc)
            (by rw [hid]; exact h)
          rw [hrec, hid]
          simp

theorem walkPairs_cons (n : Node) (pref : List Sym) (x : Sym)
    (rest : List Sym) :
    walkPairs n pref (x :: rest) =
      match getChild n.children (pref ++ [x]) with
      | none => none
      | some c =>
          (walkPairs c (pref ++ [x]) rest).map (fun ps => (x, c) :: ps) := rfl

theorem walkPairs_isSome : ∀ (q : List Sym) (n : Node) (pref : List Sym),
    (walkPairs n pref q).isSome = (walkNode n pref q).isSome
  | [], _, _ => rfl
  | x :: rest, n, pref => by
      rw [walkPairs_cons, walkNode_cons]
      cases getChild n.children (pref ++ [x]) with
      | none => rfl
      | some c => simp [walkPairs_isSome rest c (pref ++ [x])]

/-- The pair list of `get_prefixes` carries the queried symbols in
order, and every recorded node is the one the lookup walk finds at a
prefix of the query. -/
theorem walkPairs_spec : ∀ (q : List Sym) (n : Node) (pref : List Sym)
    (ps : List (Sym × Node)), walkPairs n pref q = some ps →
    ps.map Prod.fst = q ∧
    ∀ p ∈ ps, ∃ q', q' <+: q ∧ walkNode n pref q' = some p.2
  | [], n, pref, ps, h => by
      simp only [walkPairs] at h
      injection h with h
      subst h
      exact ⟨rfl, by simp⟩
  | x :: rest, n, pref, ps, h => by
      rw [walkPairs_cons] at h
      cases hg : getChild n.children (pref ++ [x]) with
      | none => rw [hg] at h; exact absurd h (by simp)
      | some c =>
          cases hp : walkPairs c (pref ++ [x]) rest with
          | none => simp [hg, hp] at h
          | some ps' =>
              simp only [hg, hp, Option.map_some', Option.some.injEq] at h
              subst h
              obtain ⟨hmap, hmem⟩ := walkPairs_spec rest c (pref ++ [x]) ps' hp
              refine ⟨by simp [hmap], ?_⟩
              intro p hp'
              rcases List.mem_cons.mp hp' with rfl | hp'
              · refine ⟨[x], ⟨rest, rfl⟩, ?_⟩
                rw [walkNode_cons, hg]
                rfl
              · obtain ⟨q'', hpre, hwalk⟩ := hmem p hp'
                refine ⟨x :: q'', List.cons_prefix_cons.mpr ⟨rfl, hpre⟩, ?_⟩
                rw [walkNode_cons, hg]
                exact hwalk

/-- In a well-formed tree the recorded nodes of `get_prefixes` carry
exactly the prefixes of lengths `1..len` as ids, in order. -/
theorem walkPairs_ids : ∀ (q : List Sym) (n : Node)
    (ps : List (Sym × Node)), WFC n.id n.children →
    walkPairs n n.id q = some ps →
    ps.map (fun p => p.2.id) =
      (List.range q.length).map (fun i => n.id ++ q.take (i + 1))
  | [], n, ps, _, h => by
      simp only [walkPairs] at h
      injection h with h
      subst h
      simp
  | x :: rest, n, ps, hw, h => by
      rw [walkPairs_cons] at h
      cases hg : getChild n.children (n.id ++ [x]) with
      | none => rw [hg] at h; exact absurd h (by simp)
      | some c =>
          obtain ⟨hex, hid, hwc⟩ := getChild_of_WFC n.id n.children _ c hw hg
          cases hp : walkPairs c (n.id ++ [x]) rest with
          | none => simp [hg, hp] at h
          | some ps' =>
              simp only [hg, hp, Option.map_some', Option.some.injEq] at h
              subst h
              have hrec := walkPairs_ids rest c ps' (hid ▸ hwc)
                (by rw [hid]; exact hp)
              rw [List.map_cons, hrec]
              rw [List.length_cons, List.range_succ_eq_map, List.map_cons,
                List.map_map]
              simp only [List.cons.injEq]
              constructor
              · simp [hid]
              · apply List.map_congr_left
                intro i _
                simp [hid, List.take_succ_cons]

/-- C8: `get_node` and `get_prefixes` fail (KeyError, modelled `none`)
exactly when some prefix of the query was never inserted — equivalently
when the query is non-empty and a prefix of no inserted sequence; on
success `get_node` returns the node whose id is the full query, and
`get_prefixes` returns the ordered `(symbol, node)` pairs of prefix
lengths `1..len`, each node being the tree's node at that prefix. -/
theorem get_node_get_prefixes_spec (ws : List (List Sym × ℚ × String))
    (v : List Sym) :
    ((get_node (insertList emptyTree ws) v).isSome ↔
      (v = [] ∨ ∃ e ∈ ws, v <+: e.1)) ∧
    ((get_prefixes (insertList emptyTree ws) v).isSome ↔
      (get_node (insertList emptyTree ws) v).isSome) ∧
    (∀ n, get_node (insertList emptyTree ws) v = some n → n.id = v) ∧
    (∀ ps, get_prefixes (insertList emptyTree ws) v = some ps →
      ps.map Prod.fst = v ∧
      ps.map (fun p => p.2.id) =
        (List.range v.length).map (fun i => v.take (i + 1)) ∧
      ∀ p ∈ ps, get_node (insertList emptyTree ws) p.2.id = some p.2) := by
  obtain ⟨hid, hwf⟩ := WF_insertList ws emptyTree rfl trivial
  have hwf' : WFC (insertList emptyTree ws).id
      (insertList emptyTree ws).children := by rw [hid]; exact hwf
  refine ⟨?_, ?_, ?_, ?_⟩
  · rw [get_node_isSome_insertList ws emptyTree v, get_node_emptyTree v]
  · unfold get_prefixes get_node
    rw [walkPairs_isSome v (insertList emptyTree ws) []]
  · intro n h
    have h' : walkNode (insertList emptyTree ws)
        (insertList emptyTree ws).id v = some n := by rw [hid]; exact h
    have := walkNode_id v (insertList emptyTree ws) n hwf' h'
    rw [hid] at this
    simpa using this
  · intro ps h
    have h' : walkPairs (insertList emptyTree ws)
        (insertList emptyTree ws).id v = some ps := by rw [hid]; exact h
    obtain ⟨hmap, hmem⟩ :=
      walkPairs_spec v (insertList emptyTree ws) [] ps h
    refine ⟨hmap, ?_, ?_⟩
    · have := walkPairs_ids v (insertList emptyTree ws) ps hwf' h'
      rw [hid] at this
      simpa using this
    · intro p hp
      obtain ⟨q', hq', hwalk⟩ := hmem p hp
      have hw' : walkNode (insertList emptyTree ws)
          (insertList emptyTree ws).id q' = some p.2 := by
        rw [hid]; exact hwalk
      have hpid := walkNode_id q' (insertList emptyTree ws) p.2 hwf' hw'
      rw [hid] at hpid
      simp only [List.nil_append] at hpid
      rw [hpid]
      exact hwalk

/-- C8 witness: for the one-word build `ab`, looking up the prefix `a`
succeeds and the returned node's id is `a`. -/
theorem get_node_get_prefixes_spec_witness :
    ∃ n, get_node (insertList emptyTree [(["a", "b"], (1 : ℚ), "w")])
      ["a"] = some n ∧ n.id = ["a"] := by
  have hspec := get_node_get_prefixes_spec [(["a", "b"], (1 : ℚ), "w")] ["a"]
  have hsome : (get_node (insertList emptyTree
      [(["a", "b"], (1 : ℚ), "w")]) ["a"]).isSome := by
    rw [hspec.1]
    exact Or.inr ⟨_, List.mem_cons_self _ _, ⟨["b"], rfl⟩⟩
  obtain ⟨n, hn⟩ := Option.isSome_iff_exists.mp hsome
  exact ⟨n, hn, hspec.2.2.1 n hn⟩

/-- The value stored per node id in `_cache` by `get_node_stats`:
`{'n': ..., 'entropy': ...}`. -/
structure NodeStats where
  n : ℕ
  entropy : ℝ

/-- Dict lookup in the statistics cache, keyed by node id. -/
def lookupCache : List (List Sym × NodeStats) → List Sym → Option NodeStats
  | [], _ => none
  | (k, s) :: rest, key => if k = key then some s else lookupCache rest key

/-- A `PrefixTree` object as a whole: the root dict plus the
memoization cache `_cache`. -/
structure PTree where
  root : Node
  cache : List (List Sym × NodeStats)

/-- `PrefixTree._entropy(v)`: add 1 to every entry, divide by the sum,
return `-sum(v * log2 v)`. -/
noncomputable def entropyF (v : List ℚ) : ℝ :=
  -(((v.map (fun x => (x : ℝ) + 1)).map
      (fun x => x / ((v.map (fun y => (y : ℝ) + 1)).sum))).map
      (fun x => x * Real.logb 2 x)).sum

/-- `PrefixTree.get_node_stats(node)`: return the cached statistics for
the node's id if present; otherwise compute the continuation
frequencies, store `{'n': len, 'entropy': _entropy}` in the cache (a
new dict key is appended) and return it. -/
noncomputable def get_node_stats (t : PTree) (node : Node) :
    NodeStats × PTree :=
  match lookupCache t.cache node.id with
  | some s => (s, t)
  | none =>
      let contFreqs := (get_continuations node).map Prod.snd
      let s : NodeStats := ⟨contFreqs.length, entropyF contFreqs⟩
      (s, ⟨t.root, t.cache ++ [(node.id, s)]⟩)

/-- `insert` on the whole object: the tree is mutated, the cache is
not touched. -/
def insertT (t : PTree) (e : List Sym × ℚ × String) : PTree :=
  ⟨insertStep t.root e, t.cache⟩

/-- Repeated `insert` calls on the whole object. -/
def insertListT (t : PTree) : List (List Sym × ℚ × String) → PTree
  | [] => t
  | e :: rest => insertListT (insertT t e) rest

/-- Modelled from the spec: the Shannon entropy, in bits, of the
add-one-smoothed, normalized continuation-frequency distribution
`p_i = (f_i + 1) / sum_j (f_j + 1)`,
`entropy = -sum_i (p_i * log2 (p_i))`. -/
noncomputable def shannonSmoothed (f : List ℚ) : ℝ :=
  -((f.map (fun fi =>
      (((fi : ℝ) + 1) / ((f.map (fun fj => (fj : ℝ) + 1)).sum)) *
        Real.logb 2
          (((fi : ℝ) + 1) / ((f.map (fun fj => (fj : ℝ) + 1)).sum)))).sum)

/-- The source's elementwise entropy pipeline is exactly the spec's
smoothed Shannon entropy. -/
theorem entropyF_eq_shannonSmoothed (v : List ℚ) :
    entropyF v = shannonSmoothed v := by
  unfold entropyF shannonSmoothed
  rw [List.map_map, List.map_map]
  rfl

/-- C5: on a cache miss (in particular whenever a node's statistics
are first requested), `get_node_stats` returns the length of the
node's continuation list as `n`, and as `entropy` the Shannon entropy
in bits of the add-one-smoothed normalized continuation-frequency
distribution. -/
theorem get_node_stats_spec (t : PTree) (node : Node)
    (h : lookupCache t.cache node.id = none) :
    (get_node_stats t node).1 =
      ⟨(get_continuations node).length,
        shannonSmoothed ((get_continuations node).map Prod.snd)⟩ := by
  unfold get_node_stats
  rw [h]
  refine congrArg₂ NodeStats.mk ?_ ?_
  · simp
  · exact entropyF_eq_shannonSmoothed _

/-- C5 witness: the fresh empty tree with an empty cache. -/
theorem get_node_stats_spec_witness :
    lookupCache (PTree.mk emptyTree []).cache emptyTree.id = none ∧
    (get_node_stats ⟨emptyTree, []⟩ emptyTree).1 =
      ⟨(get_continuations emptyTree).length,
        shannonSmoothed ((get_continuations emptyTree).map Prod.snd)⟩ :=
  ⟨rfl, get_node_stats_spec ⟨emptyTree, []⟩ emptyTree rfl⟩

theorem lookupCache_append_of_none (c : List (List Sym × NodeStats))
    (k : List Sym) (s : NodeStats) (h : lookupCache c k = none) :
    lookupCache (c ++ [(k, s)]) k = some s := by
  induction c with
  | nil => simp [lookupCache]
  | cons e rest ih =>
      obtain ⟨k', s'⟩ := e
      rw [lookupCache] at h
      by_cases hk : k' = k
      · rw [if_pos hk] at h
        exact absurd h (by simp)
      · rw [if_neg hk] at h
        rw [List.cons_append, lookupCache, if_neg hk]
        exact ih h

theorem insertListT_cache : ∀ (ws : List (List Sym × ℚ × String))
    (t : PTree), (insertListT t ws).cache = t.cache
  | [], _ => rfl
  | e :: rest, t => by
      rw [insertListT, insertListT_cache rest]
      rfl

/-- After a call of `get_node_stats`, the returned statistics are in
the cache under the node's id. -/
theorem lookupCache_get_node_stats (t : PTree) (node : Node)
    (s : NodeStats) (t' : PTree) (h : get_node_stats t node = (s, t')) :
    lookupCache t'.cache node.id = some s := by
  unfold get_node_stats at h
  cases hl : lookupCache t.cache node.id with
  | some s0 =>
      rw [hl] at h
      injection h with h1 h2
      subst h1
      subst h2
      exact hl
  | none =>
      rw [hl] at h
      injection h with h1 h2
      subst h1
      subst h2
      exact lookupCache_append_of_none t.cache node.id _ hl

/-- C9: once `get_node_stats` has been called for a node, any later
call for a node with the same id returns the memoized statistics, even
after arbitrary further insertions — `insert` never invalidates the
cache. -/
theorem get_node_stats_stale (t : PTree) (node : Node) (s : NodeStats)
    (t' : PTree) (ws : List (List Sym × ℚ × String)) (node' : Node)
    (h1 : get_node_stats t node = (s, t'))
    (h2 : node'.id = node.id) :
    (get_node_stats (insertListT t' ws) node').1 = s := by
  have hc := lookupCache_get_node_stats t node s t' h1
  unfold get_node_stats
  rw [insertListT_cache, h2, hc]

/-- C9 witness: statistics of the empty root are cached, then a word
is inserted below the root (changing its continuations); the stale
cached statistics are still returned. -/
theorem get_node_stats_stale_witness :
    (get_node_stats (insertListT (get_node_stats ⟨emptyTree, []⟩
        emptyTree).2 [(["a"], (1 : ℚ), "w")]) emptyTree).1 =
      (get_node_stats ⟨emptyTree, []⟩ emptyTree).1 :=
  get_node_stats_stale ⟨emptyTree, []⟩ emptyTree _ _ [(["a"], (1 : ℚ), "w")]
    emptyTree rfl rfl

/-- Byte-wise (code-point) comparison of character lists, as Python
compares strings. -/
def charListLt : List Char → List Char → Bool
  | [], [] => false
  | [], _ :: _ => true
  | _ :: _, [] => false
  | a :: as, b :: bs =>
      if a.val < b.val then true
      else if b.val < a.val then false
      else charListLt as bs

/-- Python string comparison `s < t`. -/
def strLt (s t : String) : Bool := charListLt s.data t.data

/-- Insert into a sorted list (ascending by `strLt`). -/
def insortStr (s : String) : List String → List String
  | [] => [s]
  | x :: xs => if strLt s x then s :: x :: xs else x :: insortStr s xs

/-- Python `list.sort()` on strings: ascending lexicographic order of
code points (insertion sort; the keys here are distinct). -/
def sortStrs : List String → List String
  | [] => []
  | x :: xs => insortStr x (sortStrs xs)

/-- Dict lookup keyed by strings. -/
def lookupStr {α : Type} : List (String × α) → String → Option α
  | [], _ => none
  | (k, v) :: rest, key => if k = key then some v else lookupStr rest key

/-- A `SegmentSurprisalTree` after `read_elp`: the lexicon prefix tree
(`self.tree`) and the word-to-pronunciation dict
(`self.pronunciations`).  The statistics cache plays no part in the
continuation queries. -/
structure SST where
  tree : Node
  pronunciations : List (String × List Sym)

/-- The loop body of `get_word_continuations`: for each
`(phoneme_iter, prefix)` pair of `get_prefixes`, record the entry
`'%s_%s' % (phoneme_count, phoneme_iter)` mapped to the continuation
frequencies of that prefix node; `phoneme_count` counts up from 0. -/
def contEntries : List (Sym × Node) → ℕ → List (String × List ℚ)
  | [], _ => []
  | (x, nd) :: rest, c =>
      (toString c ++ "_" ++ x, (get_continuations nd).map Prod.snd) ::
        contEntries rest (c + 1)

/-- `SegmentSurprisalTree.get_word_continuations(word)`: look up the
pronunciation (a missing word raises, modelled `none`), append the
end marker `#`, walk `get_prefixes` (an unknown path raises KeyError,
also `none`), and build the keyed continuation dict. -/
def get_word_continuations (s : SST) (word : String) :
    Option (List (String × List ℚ)) :=
  (lookupStr s.pronunciations word).bind fun pron =>
    (get_prefixes s.tree (pron ++ ["#"])).map fun ps => contEntries ps 0

/-- The scan of `get_uniqueness_point`: walk the SORTED key list with
a counter `n`; return `(n, key)` at the first key whose continuation
list has exactly one element; a missing dict key raises (unreachable),
and exhaustion raises ValueError — both modelled `none`. -/
def scanKeys (d : List (String × List ℚ)) :
    List String → ℕ → Option (ℕ × String)
  | [], _ => none
  | k :: ks, n =>
      match lookupStr d k with
      | none => none
      | some conts =>
          if conts.length = 1 then some (n, k) else scanKeys d ks (n + 1)

/-- `SegmentSurprisalTree.get_uniqueness_point(word)`: sort the
composite `'index_symbol'` keys of the continuation dict as STRINGS
(`phoneme_list.sort()` — lexicographic, not numeric), then scan in
that order for the first entry with a single continuation. -/
def get_uniqueness_point (s : SST) (word : String) : Option (ℕ × String) :=
  (get_word_continuations s word).bind fun d =>
    scanKeys d (sortStrs (d.map Prod.fst)) 0

/-- A lexicon with two 10-phoneme words differing only in their last
phoneme; every prefix position thus has index 0..10 once the end
marker is appended. -/
def sstLong : SST :=
  { tree := insertList emptyTree
      [(["a", "b", "c", "d", "e", "f", "g", "h", "i", "j", "#"],
          (1 : ℚ), "wordj"),
        (["a", "b", "c", "d", "e", "f", "g", "h", "i", "k", "#"],
          (1 : ℚ), "wordk")],
    pronunciations :=
      [("wordj", ["a", "b", "c", "d", "e", "f", "g", "h", "i", "j"]),
        ("wordk", ["a", "b", "c", "d", "e", "f", "g", "h", "i", "k"])] }

/-- C1 (code behavior at the failing input): for a word with 11 prefix
positions, the numerically first position with a unique continuation
is position 9 (key `9_j`) — positions 0..8 have two continuations —
yet `get_uniqueness_point` returns `(1, "10_#")`, because the
composite keys are sorted lexicographically (`"10_#"` sorts between
`"0_a"` and `"1_b"`), not by numeric position. -/
theorem get_uniqueness_point_lexicographic_defect :
    get_uniqueness_point sstLong "wordj" = some (1, "10_#") ∧
    (((get_word_continuations sstLong "wordj").getD []).map
        (fun p => (p.1, p.2.length))) =
      [("0_a", 2), ("1_b", 2), ("2_c", 2), ("3_d", 2), ("4_e", 2),
        ("5_f", 2), ("6_g", 2), ("7_h", 2), ("8_i", 2), ("9_j", 1),
        ("10_#", 1)] := by
  constructor
  · norm_num +decide [get_uniqueness_point, get_word_continuations, sstLong,
      lookupStr, get_prefixes, walkPairs, getChild, insertList, insertStep,
      insert, insertPath, setChild, emptyTree, contEntries, get_continuations,
      getContsC, sortStrs, insortStr, strLt, charListLt, scanKeys]
  · norm_num +decide [get_word_continuations, sstLong, lookupStr, get_prefixes,
      walkPairs, getChild, insertList, insertStep, insert, insertPath,
      setChild, emptyTree, contEntries, get_continuations, getContsC]

/-- C7 (idempotence), children level, key step: a second
`calculate_probs` pass recomputes every `prob` from unchanged
frequencies, so it changes nothing. -/
theorem calcProbsC_idem : ∀ (pf : ℚ) (cs : Children),
    calcProbsC pf (calcProbsC pf cs) = calcProbsC pf cs
  | _, .nil => rfl
  | pf, .cons k (.mk i l f _p cc) t => by
      simp only [calcProbsC]
      rw [calcProbsC_idem f cc, calcProbsC_idem pf t]

/-- C7: calling `calculate_probs` twice in succession with no
intervening insertions leaves every node's probability field identical
to its value after the first call. -/
theorem calculate_probs_idempotent (t : Node) :
    calculate_probs (calculate_probs t) = calculate_probs t := by
  cases t with
  | mk i l f p c =>
      simp only [calculate_probs]
      rw [calcProbsC_idem f c]

/-- C10: `insert` with the empty sequence always fails (the final
label append refers to the loop variable, which is never bound), and
the failed call has already added `freq` to the root frequency: the
tree is left mutated, so the operation is not atomic. -/
theorem insert_empty_fails_mutated (t : Node) (w : ℚ) (l : String) :
    ∃ t', insert t [] w l = .error t' ∧
      t'.freq = t.freq + w ∧ t'.children = t.children ∧
      t'.labels = t.labels ∧ t'.id = t.id := by
  exact ⟨.mk t.id t.labels (t.freq + w) t.prob t.children,
    rfl, rfl, rfl, rfl, rfl⟩

end SpeechStats
